import Mathlib

/-!
Verification development for the MCTS engine of `agent.h` (class `node` and
the surrounding agent classes).

The embedding mirrors `node::run_mcts`, `node::select`, `node::expand`,
`node::simulate`, `node::update`, `node::take_action`, `node::is_selectable`,
`node::ucb_score` and `node::all_moves` as pure Lean functions.  The repository
ships only `agent.h`; the collaborators `board.h` and `action.h` are not in the
sources, so the board, the action value and the random engine are modelled from
the specification (each such definition carries a doc comment starting with
"Modelled from the spec").

Floating point: `ucb_score` computes with C++ `float`.  Transcendental values
(`log`, `sqrt`) have no exact rational embedding, so scores are modelled by the
type `FP`: IEEE special values (NaN, plus/minus infinity) are propagated
exactly, while finite magnitudes of `log`/`sqrt` are replaced by rational
surrogates that preserve sign and the value at the argument 1.  No theorem in
this file depends on a finite magnitude beyond its sign; what the theorems
consume is exactly the special-value/sign classification that IEEE fixes.

C++ in-place mutation of the tree is embedded by explicit state passing: the
selected path is a list of child indices from the root, `updateTree` rebuilds
the tree along that path, and the single `std::default_random_engine` is
threaded through every operation in the same order as in the source.
-/

namespace NoGo

/-- Two-player piece colour, `board::black` / `board::white` of the framework. -/
inductive Player : Type where
  | black : Player
  | white : Player
deriving DecidableEq

/-- The opponent of a player. -/
def Player.other : Player → Player
  | Player.black => Player.white
  | Player.white => Player.black

/-- Modelled from the spec: `board.h` is not among the sources.  The spec (§3,
§6) treats the position as an opaque value owned by the Rules Oracle with
`apply`, `current_player` and terminal detection; the game is alternating-move
on a fixed 9x9 grid (move indices `0..80`).  The model keeps the player to
move (`info().who_take_turns`), the index of the last move played
(`info().last_move.i`, read by `node::expand`), and the list of currently open
cells; a move is legal exactly when its cell is open, and playing it removes
the cell and passes the turn. -/
structure Board : Type where
  who_take_turns : Player
  last_move : Nat
  free : List Nat
deriving DecidableEq

/-- Modelled from the spec: `board::place`, the single Rules-Oracle capability
`apply(position, move)` of §6 — deterministic, returns the successor position
when the move is legal and an error otherwise (embedded as `Option`). -/
def Board.place (b : Board) (m : Nat) : Option Board :=
  if m ∈ b.free then some ⟨b.who_take_turns.other, m, b.free.erase m⟩ else none

/-- Boards whose open cells are distinct valid indices of the 9x9 grid.  Every
position the Rules Oracle can produce satisfies this. -/
def goodBoard (b : Board) : Prop := b.free.Nodup ∧ ∀ m ∈ b.free, m < 81

/-- Modelled from the spec: the pseudo-random source owned by the agent
(`std::default_random_engine engine` of `random_agent`), a minstd-style linear
congruential state. -/
structure Engine : Type where
  state : Nat
deriving DecidableEq

/-- One draw from the engine (minstd step). -/
def Engine.next (e : Engine) : Nat × Engine :=
  let s := (16807 * e.state) % 2147483647
  (s, ⟨s⟩)

/-- Modelled from the spec: `random_agent::random_agent` seeds the engine from
the `seed` meta entry; minstd states live in `[1, 2147483646]`. -/
def seedEngine (s : Nat) : Engine :=
  ⟨if s % 2147483647 = 0 then 1 else s % 2147483647⟩

/-- Modelled from the spec (§4.3): `std::shuffle` consumes the engine in an
implementation-defined way, so the permutation is modelled as a deterministic
draw-without-replacement using the engine stream.  Fuel equals the list length
at the call site (81). -/
def shuffleGo : Nat → List Nat → Engine → List Nat × Engine
  | 0, l, e => (l, e)
  | fuel + 1, l, e =>
    if l.isEmpty then (l, e)
    else
      let r := e.next
      let a := l.getD (r.1 % l.length) 0
      let rest := shuffleGo fuel (l.erase a) r.2
      (a :: rest.1, rest.2)

/-- `node::all_moves`: the 81 move indices in shuffled order. -/
def all_moves (e : Engine) : List Nat × Engine :=
  shuffleGo 81 (List.range 81) e

/-- The probe count used by `node::is_selectable`: the number of moves in
`0..80` that `board::place` accepts on (a copy of) the position. -/
def legal_moves (b : Board) : Nat :=
  ((List.range 81).filter (fun m => (b.place m).isSome)).length

/-- The first legal move of the (shuffled) candidate list applied to the
position — the inner `for (int move : moves)` loop of `node::simulate`. -/
def firstLegal (b : Board) : List Nat → Option Board
  | [] => none
  | m :: rest =>
    match b.place m with
    | some b' => some b'
    | none => firstLegal b rest

/-- The `while(!is_game_end)` loop of `node::simulate`: repeatedly play the
first legal candidate until none is legal.  The C++ loop terminates because
each placement fills a cell of the finite board; the embedding makes the same
bound explicit as fuel (82 exceeds the number of cells, and the development
proves the fuel is never exhausted on oracle-produced boards). -/
def playoutFuel : Nat → Board → List Nat → Board
  | 0, b, _ => b
  | fuel + 1, b, moves =>
    match firstLegal b moves with
    | some b' => playoutFuel fuel b' moves
    | none => b

/-- `node::simulate`: random playout from a position; the winner is black
exactly when white is to move at the final position. -/
def simulate (b : Board) (e : Engine) : Player × Engine :=
  let ms := all_moves e
  let endB := playoutFuel 82 b ms.1
  (if endB.who_take_turns == Player.white then Player.black else Player.white, ms.2)

/-- An unreduced fraction; interpreted as `num / den` with `den` kept positive
by every operation used in this file. -/
structure FQ : Type where
  num : Int
  den : Nat
deriving DecidableEq

/-- Embedding of a C++ `float` value as used by `node::ucb_score`: a finite
magnitude or one of the IEEE special values. -/
inductive FP : Type where
  | val : FQ → FP
  | pinf : FP
  | ninf : FP
  | nan : FP
deriving DecidableEq

/-- Fraction comparison (valid for positive denominators). -/
def FQ.ltB (a b : FQ) : Bool := decide (a.num * (b.den : Int) < b.num * (a.den : Int))

/-- IEEE `>` comparison: any comparison against NaN is false. -/
def FP.gt : FP → FP → Bool
  | FP.nan, _ => false
  | _, FP.nan => false
  | FP.val a, FP.val b => FQ.ltB b a
  | FP.val _, FP.pinf => false
  | FP.val _, FP.ninf => true
  | FP.pinf, FP.pinf => false
  | FP.pinf, _ => true
  | FP.ninf, _ => false

/-- IEEE addition on the model. -/
def FP.add : FP → FP → FP
  | FP.nan, _ => FP.nan
  | _, FP.nan => FP.nan
  | FP.pinf, FP.ninf => FP.nan
  | FP.ninf, FP.pinf => FP.nan
  | FP.pinf, _ => FP.pinf
  | _, FP.pinf => FP.pinf
  | FP.ninf, _ => FP.ninf
  | _, FP.ninf => FP.ninf
  | FP.val a, FP.val b => FP.val ⟨a.num * b.den + b.num * a.den, a.den * b.den⟩

/-- IEEE multiplication on the model (`inf * 0 = NaN`). -/
def FP.mul : FP → FP → FP
  | FP.nan, _ => FP.nan
  | _, FP.nan => FP.nan
  | FP.pinf, FP.pinf => FP.pinf
  | FP.pinf, FP.ninf => FP.ninf
  | FP.ninf, FP.pinf => FP.ninf
  | FP.ninf, FP.ninf => FP.pinf
  | FP.pinf, FP.val b => if b.num = 0 then FP.nan else if 0 < b.num then FP.pinf else FP.ninf
  | FP.val a, FP.pinf => if a.num = 0 then FP.nan else if 0 < a.num then FP.pinf else FP.ninf
  | FP.ninf, FP.val b => if b.num = 0 then FP.nan else if 0 < b.num then FP.ninf else FP.pinf
  | FP.val a, FP.ninf => if a.num = 0 then FP.nan else if 0 < a.num then FP.ninf else FP.pinf
  | FP.val a, FP.val b => FP.val ⟨a.num * b.num, a.den * b.den⟩

/-- IEEE division on the model: `0/0 = NaN`, `x/0 = ±inf` for `x ≠ 0` (the
divisors in `ucb_score` come from nonnegative counters, so the positive-zero
convention applies). -/
def FP.div : FP → FP → FP
  | FP.nan, _ => FP.nan
  | _, FP.nan => FP.nan
  | FP.pinf, FP.pinf => FP.nan
  | FP.pinf, FP.ninf => FP.nan
  | FP.ninf, FP.pinf => FP.nan
  | FP.ninf, FP.ninf => FP.nan
  | FP.pinf, FP.val b => if 0 ≤ b.num then FP.pinf else FP.ninf
  | FP.ninf, FP.val b => if 0 ≤ b.num then FP.ninf else FP.pinf
  | FP.val _, FP.pinf => FP.val ⟨0, 1⟩
  | FP.val _, FP.ninf => FP.val ⟨0, 1⟩
  | FP.val a, FP.val b =>
    if b.num = 0 then
      (if a.num = 0 then FP.nan else if 0 < a.num then FP.pinf else FP.ninf)
    else if 0 < b.num then FP.val ⟨a.num * b.den, a.den * b.num.natAbs⟩
    else FP.val ⟨-(a.num * b.den), a.den * b.num.natAbs⟩

/-- IEEE square root on the model: NaN on negative arguments, `+inf` at
`+inf`; the finite nonnegative magnitude is a surrogate (the identity), which
preserves sign and zero — the only facts the development uses. -/
def FP.sqrt : FP → FP
  | FP.nan => FP.nan
  | FP.pinf => FP.pinf
  | FP.ninf => FP.nan
  | FP.val q => if q.num < 0 then FP.nan else FP.val q

/-- Float `log` at the nonnegative-integer arguments `ucb_score` uses:
`log 0 = -inf` (IEEE), and for `n ≥ 1` a finite nonnegative surrogate that is
zero exactly at 1 — again, only sign and zero location matter to any proof. -/
def qlogNat : Nat → FP
  | 0 => FP.ninf
  | n + 1 => FP.val ⟨n, 1⟩

/-- The exploration constant `c = sqrt(2)` (finite positive; magnitude is a
rational surrogate). -/
def sqrtTwo : FQ := ⟨577, 408⟩

/-- `node::ucb_score`: `win/visit + c * sqrt(log(parent->visit)/visit)` in
`float` arithmetic.  `parentVisit` stands for `parent->visit`. -/
def ucb_score (win visit parentVisit : Nat) : FP :=
  let exploit := FP.div (FP.val ⟨win, 1⟩) (FP.val ⟨visit, 1⟩)
  let explore := FP.sqrt (FP.div (qlogNat parentVisit) (FP.val ⟨visit, 1⟩))
  FP.add exploit (FP.mul (FP.val sqrtTwo) explore)

/-- Modelled from the spec: `action.h` is not among the sources.  §4.2/§6 need
only the played move plus the default-constructed "no move" sentinel
(`action()`), returned when the root has no children. -/
inductive Action : Type where
  | none : Action
  | place : Nat → Player → Action
deriving DecidableEq

/-- A vertex of the search tree: the `node` class minus the non-owning
`parent` pointer, which the pure embedding replaces by passing the parent's
visit count where it is read (`ucb_score`) — see the C9 theorem for why that
pointer always denotes the live parent. -/
inductive Node : Type where
  | mk : Board → Nat → Nat → List Node → Node

/-- The board state of the node (the inherited `board` subobject). -/
def Node.state : Node → Board
  | Node.mk s _ _ _ => s

/-- The `win` counter. -/
def Node.win : Node → Nat
  | Node.mk _ w _ _ => w

/-- The `visit` counter. -/
def Node.visit : Node → Nat
  | Node.mk _ _ v _ => v

/-- The owned children (`std::vector<node> child`). -/
def Node.child : Node → List Node
  | Node.mk _ _ _ c => c

/-- `node::node(state)`: a fresh root for a position, statistics `(0,0)`. -/
def freshNode (b : Board) : Node := Node.mk b 0 0 []

/-- Looks up the node addressed by a list of child indices (the pure stand-in
for a `node*` into the tree). -/
def Node.get? : Node → List Nat → Option Node
  | t, [] => some t
  | t, i :: rest =>
    match t.child[i]? with
    | some ch => ch.get? rest
    | none => none

/-- All nodes of a tree satisfy `P` (quantified over index paths). -/
def AllNodes (P : Node → Prop) (t : Node) : Prop :=
  ∀ r q, t.get? r = some q → P q

/-- `r` is an initial segment of the index path `f` (the nodes the
backpropagation path visits are exactly the initial segments of the leaf's
index path). -/
def pathLe : List Nat → List Nat → Bool
  | [], _ => true
  | _ :: _, [] => false
  | i :: r, j :: f => i == j && pathLe r f

/-- `node::update` along a stored path: every node on the path (that is, at
every initial segment of the index path) gets `visit++`, and `win++` exactly
when `addWin` holds.  In the source the flag is `winner == info().who_take_turns`
where `info()` is read on the node `update` is invoked on — the root — so the
flag is computed once and is uniform across the path (see the C1 theorem). -/
def Node.updateTree (addWin : Bool) : List Nat → Node → Node
  | [], t => Node.mk t.state (if addWin then t.win + 1 else t.win) (t.visit + 1) t.child
  | i :: rest, t =>
    Node.mk t.state (if addWin then t.win + 1 else t.win) (t.visit + 1)
      (match t.child[i]? with
       | some ch => t.child.set i (Node.updateTree addWin rest ch)
       | none => t.child)

/-- The candidate scan of `node::expand`: walk the shuffled moves, skip a move
that already names a child (`child[i].info().last_move.i == move`) or is
illegal, and return the successor position of the first eligible move. -/
def findMove (s : Board) (c : List Node) : List Nat → Option Board
  | [] => none
  | m :: rest =>
    if c.any (fun ch => ch.state.last_move == m) then findMove s c rest
    else
      match s.place m with
      | some b' => some b'
      | none => findMove s c rest

/-- `node::expand` applied to the node addressed by a path (the C++ call is
`path.back()->expand(engine)`).  Returns the rebuilt tree, the board to
simulate from (the new child's position, or the node's own when nothing was
expandable), the index of the appended child if one was created, and the
advanced engine.  On the (unreachable) invalid path the tree is returned
unchanged. -/
def Node.expandAt : List Nat → Node → Engine → Node × Board × Option Nat × Engine
  | [], t, e =>
    let ms := all_moves e
    match findMove t.state t.child ms.1 with
    | some b' =>
      (Node.mk t.state t.win t.visit (t.child ++ [Node.mk b' 0 0 []]), b',
        some t.child.length, ms.2)
    | none => (t, t.state, none, ms.2)
  | i :: rest, t, e =>
    match t.child[i]? with
    | some ch =>
      let r := Node.expandAt rest ch e
      (Node.mk t.state t.win t.visit (t.child.set i r.1), r.2.1, r.2.2.1, r.2.2.2)
    | none => (t, t.state, none, e)

/-- `node::is_selectable`: count the legal moves by probing all 81 indices; a
terminal node (zero legal moves) is not selectable, a fully-expanded node
(children count equals the legal count) is, and a partially expanded node is
not. -/
def Node.is_selectable (t : Node) : Bool :=
  let lm := legal_moves t.state
  if lm = 0 then false else decide (lm = t.child.length)

/-- The inner `for` of `node::select`: scan the children left to right with a
running maximum that starts at `-1`; only a strictly greater score replaces
the maximum, so the first of equally scored children wins, and a NaN score
never wins.  Returns the index of the chosen child.  In the source the
`max_node` pointer survives an unsuccessful pass (leaving a stale or null
`cur_node`, unreachable in real runs — see the C10 theorem); the embedding
returns `none` there. -/
def argmaxGo (pv : Nat) : List Node → Nat → FP → Option Nat → Option Nat
  | [], _, _, best => best
  | ch :: rest, i, ms, best =>
    let sc := ucb_score ch.win ch.visit pv
    if FP.gt sc ms then argmaxGo pv rest (i + 1) sc (some i)
    else argmaxGo pv rest (i + 1) ms best

/-- One pass of the selection loop over a node's children; `pv` is the
parent's (the current node's) visit count read through `parent->visit`. -/
def argmaxIdx (pv : Nat) (c : List Node) : Option Nat :=
  argmaxGo pv c 0 (FP.val ⟨-1, 1⟩) none

/-- `node::select` instrumented: walks down while the current node is
selectable, descending to the argmax child.  Returns the index path of the
walk together with the list of every `(win, visit, parent->visit)` triple on
which `ucb_score` is evaluated (ghost instrumentation consumed by the C10
theorem).  The C++ loop terminates because each step strictly descends the
finite tree; the embedding carries that bound as fuel (the tree depth is at
most the 81 cells plus the root, and the development proves the fuel
suffices on oracle-produced boards). -/
def selectFuel : Nat → Node → Option (List Nat × List (Nat × Nat × Nat))
  | 0, _ => none
  | fuel + 1, t =>
    if t.is_selectable then
      match argmaxIdx t.visit t.child with
      | some i =>
        match t.child[i]? with
        | some ch =>
          match selectFuel fuel ch with
          | some pr =>
            some (i :: pr.1, (t.child.map (fun c => (c.win, c.visit, t.visit))) ++ pr.2)
          | none => none
        | none => none
      | none => none
    else some ([], [])

/-- The instrumented selection walk from a node. -/
def Node.selectI (t : Node) : Option (List Nat × List (Nat × Nat × Nat)) :=
  selectFuel 82 t

/-- `node::select`: the index path of the selected leaf. -/
def Node.select (t : Node) : Option (List Nat) :=
  (t.selectI).map (fun pr => pr.1)

/-- The C++ conversion `int(v)` applied to a `size_t` counter: the value
modulo `2^32`, reinterpreted as a two's-complement 32-bit signed integer, so
counters in `[2^31, 2^32)` (mod `2^32`) come out negative. -/
def intOfSize (v : Nat) : Int :=
  if v % 2 ^ 32 < 2 ^ 31 then ((v % 2 ^ 32 : Nat) : Int)
  else ((v % 2 ^ 32 : Nat) : Int) - 2 ^ 32

/-- The scan of `node::take_action`: running maximum over `int(child[i].visit)`
— the `size_t` counter narrowed to a 32-bit signed `int` — seeded with `-1`;
strict comparison keeps the first of equal-visit children. -/
def takeGo : List Node → Int → Option Node → Option Node
  | [], _, best => best
  | ch :: rest, mv, best =>
    if intOfSize ch.visit > mv then takeGo rest (intOfSize ch.visit) (some ch)
    else takeGo rest mv best

/-- `node::take_action`: the move of the most-visited child, as
`action::place(best->info().last_move, info().who_take_turns)`; the sentinel
`action()` when there is no child. -/
def Node.take_action (t : Node) : Action :=
  match takeGo t.child (-1) none with
  | some bn => Action.place bn.state.last_move t.state.who_take_turns
  | none => Action.none

/-- One cycle of the `for` loop in `node::run_mcts`
(select → expand → append new leaf to the path → simulate → update),
instrumented with the selected path and the created-child index.  The `update`
flag compares the simulated winner with `info().who_take_turns` of the node
`run_mcts` runs on, i.e. the root of the tree. -/
def mctsIterI (t : Node) (e : Engine) : Option (Node × Engine × List Nat × Option Nat) :=
  match t.selectI with
  | some pr =>
    let ex := Node.expandAt pr.1 t e
    let fullPath := match ex.2.2.1 with
      | some j => pr.1 ++ [j]
      | none => pr.1
    let sim := simulate ex.2.1 ex.2.2.2
    some (Node.updateTree (sim.1 == ex.1.state.who_take_turns) fullPath ex.1,
      sim.2, pr.1, ex.2.2.1)
  | none => none

/-- The iteration loop of `node::run_mcts`, instrumented with a counter of the
iterations whose selected leaf was the root itself, terminal, with no
expansion (the iterations that add no visit to any root child). -/
def runMctsI : Nat → Node → Engine → Nat → Option (Node × Engine × Nat)
  | 0, t, e, acc => some (t, e, acc)
  | k + 1, t, e, acc =>
    match mctsIterI t e with
    | some st =>
      runMctsI k st.1 st.2.1
        (acc + (if st.2.2.1 = [] ∧ st.2.2.2 = none ∧ legal_moves t.state = 0 then 1 else 0))
    | none => none

/-- The tree and engine after `N` cycles of `node::run_mcts`. -/
def runMcts (N : Nat) (t : Node) (e : Engine) : Option (Node × Engine) :=
  (runMctsI N t e 0).map (fun st => (st.1, st.2.1))

/-- `node::run_mcts(N, engine)`: run `N` cycles, then pick the action.  The
`none` result marks the executions in which the C++ loop would dereference a
stale/null `max_node` or spin (proved unreachable from a fresh root). -/
def Node.run_mcts (t : Node) (N : Nat) (e : Engine) : Option Action :=
  (runMcts N t e).map (fun st => st.1.take_action)

/-- Sum of the visit counters over the direct children of a node. -/
def childVisitSum (t : Node) : Nat :=
  (t.child.map (fun c => c.visit)).sum

/-- Per-node well-formedness of a search tree, maintained by every MCTS
operation: a legal board; children registered under distinct `last_move`
indices, each being the Rules-Oracle successor of this node's position by that
move; and a node that is not fully expanded has only childless children (the
structural fact behind parent-pointer stability, see C9). -/
def structOK (q : Node) : Prop :=
  goodBoard q.state ∧
  (q.child.map (fun c => c.state.last_move)).Nodup ∧
  (∀ c ∈ q.child, q.state.place c.state.last_move = some c.state) ∧
  (q.child.length = legal_moves q.state ∨ ∀ c ∈ q.child, c.child = [])

/-- Every node of the tree is well-formed and has `wins ≤ visits`. -/
def Inv (t : Node) : Prop := AllNodes (fun q => q.win ≤ q.visit ∧ structOK q) t

/-- Every node of the tree has been visited at least once (holds after every
complete iteration). -/
def Inv1 (t : Node) : Prop := AllNodes (fun q => 1 ≤ q.visit) t

/-- A position is reachable from another by a sequence of legal moves. -/
inductive Reaches : Board → Board → Prop where
  | refl (b : Board) : Reaches b b
  | step {b b' c : Board} (m : Nat) : b.place m = some b' → Reaches b' c → Reaches b c

/-- A terminal position (no open cell): used by the C3 witness. -/
def bTermW : Board := ⟨Player.black, 0, []⟩

/-- A position with a single legal move: used by several witnesses. -/
def bOneW : Board := ⟨Player.black, 81, [7]⟩

/-- A position with two legal moves: used by the C1/C2 scenarios. -/
def bTwo : Board := ⟨Player.black, 81, [0, 1]⟩

/-- The C1 scenario: a two-level path root → c1 → c2.  Black moves at the
root, white at c1, black again at c2. -/
def tC1 : Node :=
  Node.mk bTwo 0 0
    [Node.mk ⟨Player.white, 0, [1]⟩ 0 0
      [Node.mk ⟨Player.black, 1, []⟩ 0 0 []]]

/-- The C2 scenario: a fully-expanded root (two legal moves, two children),
one child unvisited, the other with `visits = 10, wins = 5`. -/
def tC2 : Node :=
  Node.mk bTwo 5 10
    [Node.mk ⟨Player.white, 0, [1]⟩ 0 0 [],
     Node.mk ⟨Player.white, 1, [0]⟩ 5 10 []]

/-- The C6 scenario: a root whose second child's visit counter is `2^31` —
the strict maximum — while the first child has only 5 visits; the narrowing
`int(visit)` of the scan wraps the big counter to `-2^31`. -/
def tC6 : Node :=
  Node.mk bTwo 0 (2 ^ 31 + 5)
    [Node.mk ⟨Player.white, 0, [1]⟩ 1 5 [],
     Node.mk ⟨Player.white, 1, [0]⟩ 0 (2 ^ 31) []]

/-- Projection of the instrumented run, used only to state concrete witnesses
(`getD` is never hit at the witnesses' inputs, where the run returns `some`). -/
def runW (k : Nat) (b : Board) (e : Engine) : Node × Engine × Nat :=
  (runMctsI k (freshNode b) e 0).getD (freshNode b, e, 0)

/-! ### Basic facts about the node accessors -/

@[simp] theorem Node.state_mk (s : Board) (w v : Nat) (c : List Node) :
    (Node.mk s w v c).state = s := rfl

@[simp] theorem Node.win_mk (s : Board) (w v : Nat) (c : List Node) :
    (Node.mk s w v c).win = w := rfl

@[simp] theorem Node.visit_mk (s : Board) (w v : Nat) (c : List Node) :
    (Node.mk s w v c).visit = v := rfl

@[simp] theorem Node.child_mk (s : Board) (w v : Nat) (c : List Node) :
    (Node.mk s w v c).child = c := rfl

theorem Node.eta (t : Node) : Node.mk t.state t.win t.visit t.child = t := by
  cases t; rfl

/-! ### Rules-Oracle lemmas -/

theorem Board.place_eq_some {b : Board} {m : Nat} {b' : Board} :
    b.place m = some b' ↔
      m ∈ b.free ∧ b' = ⟨b.who_take_turns.other, m, b.free.erase m⟩ := by
  unfold Board.place
  by_cases h : m ∈ b.free <;> simp [h, eq_comm]

theorem Board.place_mem {b : Board} {m : Nat} {b' : Board} (h : b.place m = some b') :
    m ∈ b.free :=
  (Board.place_eq_some.mp h).1

theorem Board.place_last_move {b : Board} {m : Nat} {b' : Board}
    (h : b.place m = some b') : b'.last_move = m := by
  rw [(Board.place_eq_some.mp h).2]

theorem Board.place_free {b : Board} {m : Nat} {b' : Board}
    (h : b.place m = some b') : b'.free = b.free.erase m := by
  rw [(Board.place_eq_some.mp h).2]

theorem Board.place_free_length {b : Board} {m : Nat} {b' : Board}
    (h : b.place m = some b') : b'.free.length + 1 = b.free.length := by
  rw [Board.place_free h, List.length_erase_of_mem (Board.place_mem h)]
  have hne : b.free ≠ [] := List.ne_nil_of_mem (Board.place_mem h)
  have : 0 < b.free.length := List.length_pos.mpr hne
  omega

theorem Board.place_good {b : Board} {m : Nat} {b' : Board}
    (hg : goodBoard b) (h : b.place m = some b') : goodBoard b' := by
  rw [(Board.place_eq_some.mp h).2]
  exact ⟨hg.1.erase m, fun x hx => hg.2 x (List.mem_of_mem_erase hx)⟩

theorem legal_moves_eq_zero_iff {b : Board} :
    legal_moves b = 0 ↔ ∀ m, m < 81 → b.place m = none := by
  unfold legal_moves
  rw [List.length_eq_zero, List.filter_eq_nil_iff]
  constructor
  · intro h m hm
    have := h m (List.mem_range.mpr hm)
    simpa [Option.not_isSome_iff_eq_none] using this
  · intro h m hm
    simp [h m (List.mem_range.mp hm)]

theorem legal_moves_of_empty_free {b : Board} (h : b.free = []) : legal_moves b = 0 := by
  rw [legal_moves_eq_zero_iff]
  intro m _
  unfold Board.place
  simp [h]

theorem free_eq_nil_of_legal_zero {b : Board} (hg : goodBoard b)
    (h : legal_moves b = 0) : b.free = [] := by
  cases hfree : b.free with
  | nil => rfl
  | cons x xs =>
    exfalso
    have hx : x ∈ b.free := by rw [hfree]; exact List.mem_cons_self x xs
    have hlt : x < 81 := hg.2 x hx
    have : b.place x = none := legal_moves_eq_zero_iff.mp h x hlt
    unfold Board.place at this
    simp [hx] at this

theorem goodBoard_free_le (b : Board) (hg : goodBoard b) : b.free.length ≤ 81 := by
  have hsub : b.free ⊆ List.range 81 := fun m hm => List.mem_range.mpr (hg.2 m hm)
  have := (List.subperm_of_subset hg.1 hsub).length_le
  simpa using this

/-! ### Shuffle lemmas -/

theorem shuffleGo_perm : ∀ (fuel : Nat) (l : List Nat) (e : Engine),
    (shuffleGo fuel l e).1.Perm l := by
  intro fuel
  induction fuel with
  | zero => intro l e; exact List.Perm.refl l
  | succ n ih =>
    intro l e
    unfold shuffleGo
    by_cases hl : l.isEmpty
    · simp [hl]
    · simp only [hl, if_false]
      have hlen : 0 < l.length := by
        cases l with
        | nil => simp at hl
        | cons x xs => simp
      have hmem : l.getD ((e.next).1 % l.length) 0 ∈ l := by
        have hidx : (e.next).1 % l.length < l.length := Nat.mod_lt _ hlen
        rw [List.getD_eq_getElem?_getD, List.getElem?_eq_getElem hidx]
        exact List.getElem_mem hidx
      exact ((ih _ _).cons _).trans (List.perm_cons_erase hmem).symm

theorem all_moves_mem (e : Engine) (m : Nat) : m ∈ (all_moves e).1 ↔ m < 81 := by
  unfold all_moves
  rw [(shuffleGo_perm 81 (List.range 81) e).mem_iff]
  exact List.mem_range

/-! ### Path lookup machinery -/

theorem Node.get?_append (t : Node) (p r : List Nat) :
    t.get? (p ++ r) = (t.get? p).bind (fun q => q.get? r) := by
  induction p generalizing t with
  | nil => simp [Node.get?]
  | cons i p ih =>
    show Node.get? t ((i :: p) ++ r) = _
    rw [List.cons_append]
    cases h : t.child[i]? with
    | none => simp [Node.get?, h]
    | some ch => simp [Node.get?, h, ih ch]

theorem AllNodes_self {P : Node → Prop} {t : Node} (h : AllNodes P t) : P t :=
  h [] t rfl

theorem AllNodes_sub {P : Node → Prop} {t q : Node} {p : List Nat}
    (h : AllNodes P t) (hq : t.get? p = some q) : AllNodes P q := by
  intro r x hx
  exact h (p ++ r) x (by rw [Node.get?_append, hq]; exact hx)

theorem Node.get?_single {t ch : Node} {i : Nat} (hc : t.child[i]? = some ch) :
    t.get? [i] = some ch := by
  show Node.get? t [i] = some ch
  simp [Node.get?, hc]

theorem AllNodes_child {P : Node → Prop} {t ch : Node} {i : Nat}
    (h : AllNodes P t) (hc : t.child[i]? = some ch) : AllNodes P ch :=
  AllNodes_sub h (Node.get?_single hc)

theorem AllNodes_mk {P : Node → Prop} {s : Board} {w v : Nat} {cs : List Node}
    (hroot : P (Node.mk s w v cs))
    (hch : ∀ (i : Nat) (ch : Node), cs[i]? = some ch → AllNodes P ch) :
    AllNodes P (Node.mk s w v cs) := by
  intro r q hq
  cases r with
  | nil =>
    unfold Node.get? at hq
    cases hq
    exact hroot
  | cons i r' =>
    unfold Node.get? at hq
    simp only [Node.child_mk] at hq
    cases h : cs[i]? with
    | none => rw [h] at hq; cases hq
    | some ch =>
      rw [h] at hq
      exact hch i ch h r' q hq

theorem AllNodes_of_parts {P : Node → Prop} {t : Node}
    (hroot : P t)
    (hch : ∀ (i : Nat) (ch : Node), t.child[i]? = some ch → AllNodes P ch) :
    AllNodes P t := by
  cases t with
  | mk s w v c => exact AllNodes_mk hroot (fun i ch hc => hch i ch hc)

/-! ### Generic list helpers -/

theorem list_set_getElem?_self {α : Type} {l : List α} {i : Nat} {a : α}
    (h : l[i]? = some a) : l.set i a = l := by
  induction l generalizing i with
  | nil => cases h
  | cons x xs ih =>
    cases i with
    | zero =>
      simp only [List.getElem?_cons_zero, Option.some_inj] at h
      simp [List.set, h]
    | succ i =>
      simp only [List.getElem?_cons_succ] at h
      simp [List.set, ih h]

theorem sum_map_set {α : Type} (f : α → Nat) {l : List α} {i : Nat} {a ch : α}
    (h : l[i]? = some ch) :
    ((l.set i a).map f).sum + f ch = (l.map f).sum + f a := by
  induction l generalizing i with
  | nil => cases h
  | cons x xs ih =>
    cases i with
    | zero =>
      simp only [List.getElem?_cons_zero, Option.some_inj] at h
      show (List.map f (a :: xs)).sum + f ch = (List.map f (x :: xs)).sum + f a
      rw [h]
      simp only [List.map_cons, List.sum_cons]
      omega
    | succ i =>
      simp only [List.getElem?_cons_succ] at h
      have hrec := ih h
      show (List.map f (x :: xs.set i a)).sum + f ch = (List.map f (x :: xs)).sum + f a
      simp only [List.map_cons, List.sum_cons]
      omega

theorem getElem?_lt {α : Type} {l : List α} {i : Nat} {a : α}
    (h : l[i]? = some a) : i < l.length := by
  obtain ⟨hlt, _⟩ := List.getElem?_eq_some_iff.mp h
  exact hlt

/-! ### Lemmas about `node::update` -/

theorem updateTree_state (aw : Bool) (fp : List Nat) (t : Node) :
    (Node.updateTree aw fp t).state = t.state := by
  cases fp <;> rfl

theorem updateTree_visit_root (aw : Bool) (fp : List Nat) (t : Node) :
    (Node.updateTree aw fp t).visit = t.visit + 1 := by
  cases fp <;> rfl

theorem updateTree_win_root (aw : Bool) (fp : List Nat) (t : Node) :
    (Node.updateTree aw fp t).win = if aw then t.win + 1 else t.win := by
  cases fp <;> rfl

theorem updateTree_child_length (aw : Bool) (fp : List Nat) (t : Node) :
    (Node.updateTree aw fp t).child.length = t.child.length := by
  cases fp with
  | nil => rfl
  | cons j f =>
    show (match t.child[j]? with
      | some ch => t.child.set j (Node.updateTree aw f ch)
      | none => t.child).length = t.child.length
    cases hj : t.child[j]? with
    | none => rfl
    | some ch => simp

theorem updateTree_child_sig (aw : Bool) (fp : List Nat) (t : Node) :
    (Node.updateTree aw fp t).child.map (fun q => (q.state, q.child.length)) =
      t.child.map (fun q => (q.state, q.child.length)) := by
  cases fp with
  | nil => rfl
  | cons j f =>
    have hch : (Node.updateTree aw (j :: f) t).child = (match t.child[j]? with
      | some ch => t.child.set j (Node.updateTree aw f ch)
      | none => t.child) := rfl
    rw [hch]
    cases hj : t.child[j]? with
    | none => rfl
    | some ch =>
      rw [List.map_set]
      have hgoal : (t.child.map (fun q => (q.state, q.child.length))).set j
          ((Node.updateTree aw f ch).state, (Node.updateTree aw f ch).child.length)
          = t.child.map (fun q => (q.state, q.child.length)) := by
        rw [updateTree_state, updateTree_child_length]
        apply list_set_getElem?_self
        rw [List.getElem?_map, hj]
        rfl
      exact hgoal

theorem updateTree_get_visit (aw : Bool) : ∀ (fp r : List Nat) (t : Node),
    ((Node.updateTree aw fp t).get? r).map Node.visit =
      (t.get? r).map (fun q => q.visit + (if pathLe r fp then 1 else 0)) := by
  intro fp
  induction fp with
  | nil =>
    intro r t
    cases r with
    | nil => simp [Node.get?, Node.updateTree, pathLe]
    | cons i r' =>
      have hch : (Node.updateTree aw [] t).child = t.child := rfl
      show ((Node.updateTree aw [] t).get? (i :: r')).map Node.visit = _
      unfold Node.get?
      rw [hch]
      cases h : t.child[i]? with
      | none => simp [pathLe]
      | some ch => simp [pathLe]
  | cons j f ih =>
    intro r t
    cases r with
    | nil =>
      simp [Node.get?, updateTree_visit_root, pathLe]
    | cons i r' =>
      show ((Node.updateTree aw (j :: f) t).get? (i :: r')).map Node.visit = _
      unfold Node.get?
      have hch : (Node.updateTree aw (j :: f) t).child = (match t.child[j]? with
        | some ch => t.child.set j (Node.updateTree aw f ch)
        | none => t.child) := rfl
      rw [hch]
      cases hj : t.child[j]? with
      | none =>
        cases hi : t.child[i]? with
        | none => simp
        | some ch =>
          by_cases hij : i = j
          · subst hij
            rw [hi] at hj
            cases hj
          · simp [pathLe, hij]
      | some ch =>
        by_cases hij : i = j
        · subst hij
          have hlt : i < t.child.length := getElem?_lt hj
          rw [List.getElem?_set_self hlt, hj]
          have : pathLe (i :: r') (i :: f) = pathLe r' f := by
            simp [pathLe]
          rw [this]
          exact ih r' ch
        · rw [List.getElem?_set_ne (fun hh => hij hh.symm)]
          cases hi : t.child[i]? with
          | none => simp
          | some ch2 => simp [pathLe, hij]

theorem updateTree_AllNodes (aw : Bool) : ∀ (fp : List Nat) (t : Node),
    AllNodes (fun q => q.win ≤ q.visit ∧ structOK q) t →
    AllNodes (fun q => q.win ≤ q.visit ∧ structOK q) (Node.updateTree aw fp t) := by
  intro fp
  induction fp with
  | nil =>
    intro t h
    cases t with
    | mk s w v cs =>
      apply AllNodes_of_parts
      · have hr := AllNodes_self h
        refine ⟨?_, hr.2⟩
        have : (Node.updateTree aw [] (Node.mk s w v cs)).win
            = if aw then w + 1 else w := rfl
        cases aw <;> simp_all [Node.updateTree] <;> omega
      · intro i ch hc
        have hch : (Node.updateTree aw [] (Node.mk s w v cs)).child = cs := rfl
        rw [hch] at hc
        exact AllNodes_child h hc
  | cons j f ih =>
    intro t h
    cases t with
    | mk s w v cs =>
      cases hj : cs[j]? with
      | none =>
        have heq : Node.updateTree aw (j :: f) (Node.mk s w v cs)
            = Node.mk s (if aw then w + 1 else w) (v + 1) cs := by
          show Node.mk s (if aw then w + 1 else w) (v + 1)
            (match cs[j]? with
             | some ch => cs.set j (Node.updateTree aw f ch)
             | none => cs) = _
          rw [hj]
        rw [heq]
        apply AllNodes_mk
        · have hr := AllNodes_self h
          refine ⟨?_, hr.2⟩
          have h1 : w ≤ v := hr.1
          cases aw <;> simp <;> omega
        · intro i ch hc
          exact AllNodes_child h hc
      | some ch =>
        have heq : Node.updateTree aw (j :: f) (Node.mk s w v cs)
            = Node.mk s (if aw then w + 1 else w) (v + 1)
                (cs.set j (Node.updateTree aw f ch)) := by
          show Node.mk s (if aw then w + 1 else w) (v + 1)
            (match cs[j]? with
             | some ch => cs.set j (Node.updateTree aw f ch)
             | none => cs) = _
          rw [hj]
        rw [heq]
        have hchmem : ch ∈ cs := List.getElem?_mem hj
        have hroot := AllNodes_self h
        apply AllNodes_mk
        · refine ⟨?_, ?_⟩
          · have h1 : w ≤ v := hroot.1
            cases aw <;> simp <;> omega
          · obtain ⟨hg, hnd, hpl, hsafe⟩ := hroot.2
            refine ⟨hg, ?_, ?_, ?_⟩
            · have hmap : (cs.set j (Node.updateTree aw f ch)).map
                  (fun cc => cc.state.last_move) = cs.map (fun cc => cc.state.last_move) := by
                rw [List.map_set]
                have hval : (cs.map (fun cc => cc.state.last_move)).set j
                    ((Node.updateTree aw f ch).state.last_move)
                    = cs.map (fun cc => cc.state.last_move) := by
                  rw [updateTree_state]
                  apply list_set_getElem?_self
                  rw [List.getElem?_map, hj]
                  rfl
                exact hval
              simpa [hmap] using hnd
            · intro cc hcc
              rcases List.mem_or_eq_of_mem_set hcc with hmem | hceq
              · exact hpl cc hmem
              · subst hceq
                rw [updateTree_state]
                exact hpl ch hchmem
            · rcases hsafe with hfull | hleaf
              · left
                simpa using hfull
              · right
                intro cc hcc
                rcases List.mem_or_eq_of_mem_set hcc with hmem | hceq
                · exact hleaf cc hmem
                · subst hceq
                  have : (Node.updateTree aw f ch).child.length = ch.child.length :=
                    updateTree_child_length aw f ch
                  rw [hleaf ch hchmem] at this
                  exact List.length_eq_zero.mp this
        · intro i ch2 hc
          by_cases hij : i = j
          · subst hij
            have hlt : i < cs.length := getElem?_lt hj
            rw [List.getElem?_set_self hlt] at hc
            cases hc
            exact ih ch (AllNodes_child h hj)
          · rw [List.getElem?_set_ne (fun hh => hij hh.symm)] at hc
            exact AllNodes_child h hc

theorem updateTree_childVisitSum_cons (aw : Bool) (j : Nat) (f : List Nat) (t : Node)
    {ch : Node} (hj : t.child[j]? = some ch) :
    childVisitSum (Node.updateTree aw (j :: f) t) = childVisitSum t + 1 := by
  have hch : (Node.updateTree aw (j :: f) t).child = (match t.child[j]? with
    | some ch => t.child.set j (Node.updateTree aw f ch)
    | none => t.child) := rfl
  show ((Node.updateTree aw (j :: f) t).child.map (fun q => q.visit)).sum
    = (t.child.map (fun q => q.visit)).sum + 1
  rw [hch, hj]
  show (List.map Node.visit (t.child.set j (Node.updateTree aw f ch))).sum
    = (List.map Node.visit t.child).sum + 1
  have hsum := sum_map_set Node.visit hj (a := Node.updateTree aw f ch)
  have hv : (Node.updateTree aw f ch).visit = ch.visit + 1 := updateTree_visit_root aw f ch
  omega

/-! ### Lemmas about `node::expand` -/

theorem Node.get?_nil (t : Node) : t.get? [] = some t := rfl

theorem Node.get?_cons (t : Node) (i : Nat) (r : List Nat) :
    t.get? (i :: r) = (match t.child[i]? with
      | some ch => ch.get? r
      | none => none) := rfl

theorem expandAt_nil (t : Node) (e : Engine) :
    Node.expandAt [] t e = (match findMove t.state t.child (all_moves e).1 with
      | some b' => (Node.mk t.state t.win t.visit (t.child ++ [Node.mk b' 0 0 []]), b',
          some t.child.length, (all_moves e).2)
      | none => (t, t.state, none, (all_moves e).2)) := rfl

theorem expandAt_cons (i : Nat) (rest : List Nat) (t : Node) (e : Engine) :
    Node.expandAt (i :: rest) t e = (match t.child[i]? with
      | some ch =>
        (Node.mk t.state t.win t.visit (t.child.set i (Node.expandAt rest ch e).1),
          (Node.expandAt rest ch e).2.1, (Node.expandAt rest ch e).2.2.1,
          (Node.expandAt rest ch e).2.2.2)
      | none => (t, t.state, none, e)) := rfl

theorem findMove_cons (s : Board) (cs : List Node) (m : Nat) (rest : List Nat) :
    findMove s cs (m :: rest) =
      if cs.any (fun ch => ch.state.last_move == m) then findMove s cs rest
      else match s.place m with
        | some b' => some b'
        | none => findMove s cs rest := rfl

theorem findMove_cons_skip {s : Board} {cs : List Node} {m : Nat} {rest : List Nat}
    (hc : cs.any (fun ch => ch.state.last_move == m) = true) :
    findMove s cs (m :: rest) = findMove s cs rest := by
  rw [findMove_cons, if_pos hc]

theorem findMove_cons_hit {s : Board} {cs : List Node} {m : Nat} {rest : List Nat} {b' : Board}
    (hc : ¬ cs.any (fun ch => ch.state.last_move == m) = true) (hp : s.place m = some b') :
    findMove s cs (m :: rest) = some b' := by
  rw [findMove_cons, if_neg hc, hp]

theorem findMove_cons_illegal {s : Board} {cs : List Node} {m : Nat} {rest : List Nat}
    (hc : ¬ cs.any (fun ch => ch.state.last_move == m) = true) (hp : s.place m = none) :
    findMove s cs (m :: rest) = findMove s cs rest := by
  rw [findMove_cons, if_neg hc, hp]

theorem findMove_none_iff {s : Board} {cs : List Node} : ∀ {ms : List Nat},
    findMove s cs ms = none ↔
      ∀ m ∈ ms, (∃ ch ∈ cs, ch.state.last_move = m) ∨ s.place m = none := by
  intro ms
  induction ms with
  | nil => simp [findMove]
  | cons m rest ih =>
    by_cases hc : cs.any (fun ch => ch.state.last_move == m) = true
    · have hex : ∃ ch ∈ cs, ch.state.last_move = m := by
        rw [List.any_eq_true] at hc
        obtain ⟨ch, hch, hbe⟩ := hc
        exact ⟨ch, hch, by simpa using hbe⟩
      rw [findMove_cons_skip hc, ih]
      constructor
      · intro h m' hm'
        rcases List.mem_cons.mp hm' with hm0 | hmr
        · subst hm0; exact Or.inl hex
        · exact h m' hmr
      · intro h m' hm'
        exact h m' (List.mem_cons_of_mem m hm')
    · cases hp : s.place m with
      | some b' =>
        rw [findMove_cons_hit hc hp]
        constructor
        · intro h; cases h
        · intro h
          exfalso
          rcases h m (List.mem_cons_self m rest) with hex | hnone
          · obtain ⟨ch, hch, hlm⟩ := hex
            apply hc
            rw [List.any_eq_true]
            exact ⟨ch, hch, by simpa using hlm⟩
          · rw [hp] at hnone; cases hnone
      | none =>
        rw [findMove_cons_illegal hc hp, ih]
        constructor
        · intro h m' hm'
          rcases List.mem_cons.mp hm' with hm0 | hmr
          · subst hm0; exact Or.inr hp
          · exact h m' hmr
        · intro h m' hm'
          exact h m' (List.mem_cons_of_mem m hm')

theorem findMove_some_spec {s : Board} {cs : List Node} : ∀ {ms : List Nat} {b' : Board},
    findMove s cs ms = some b' →
      ∃ m, m ∈ ms ∧ s.place m = some b' ∧ ∀ ch ∈ cs, ch.state.last_move ≠ m := by
  intro ms
  induction ms with
  | nil => intro b' h; cases h
  | cons m rest ih =>
    intro b' h
    by_cases hc : cs.any (fun ch => ch.state.last_move == m) = true
    · rw [findMove_cons_skip hc] at h
      obtain ⟨m', hm', hp, hch⟩ := ih h
      exact ⟨m', List.mem_cons_of_mem m hm', hp, hch⟩
    · cases hp : s.place m with
      | some b2 =>
        rw [findMove_cons_hit hc hp] at h
        cases h
        refine ⟨m, List.mem_cons_self m rest, hp, ?_⟩
        intro ch hch hlm
        apply hc
        rw [List.any_eq_true]
        exact ⟨ch, hch, by simpa using hlm⟩
      | none =>
        rw [findMove_cons_illegal hc hp] at h
        obtain ⟨m', hm', hp', hch⟩ := ih h
        exact ⟨m', List.mem_cons_of_mem m hm', hp', hch⟩

theorem expandAt_root_fields (p : List Nat) (t : Node) (e : Engine) :
    (Node.expandAt p t e).1.state = t.state ∧ (Node.expandAt p t e).1.win = t.win ∧
      (Node.expandAt p t e).1.visit = t.visit := by
  cases p with
  | nil =>
    rw [expandAt_nil]
    cases hfm : findMove t.state t.child (all_moves e).1 with
    | none => simp
    | some b' => simp
  | cons i rest =>
    rw [expandAt_cons]
    cases h : t.child[i]? with
    | none => simp
    | some ch => simp

theorem expandAt_cases : ∀ (p : List Nat) (t q : Node) (e : Engine),
    t.get? p = some q →
    (Node.expandAt p t e).2.2.2 = (all_moves e).2 ∧
    ((findMove q.state q.child (all_moves e).1 = none ∧
        (Node.expandAt p t e).1 = t ∧ (Node.expandAt p t e).2.1 = q.state ∧
        (Node.expandAt p t e).2.2.1 = none) ∨
     (∃ b', findMove q.state q.child (all_moves e).1 = some b' ∧
        (Node.expandAt p t e).2.1 = b' ∧
        (Node.expandAt p t e).2.2.1 = some q.child.length ∧
        (Node.expandAt p t e).1.get? (p ++ [q.child.length])
          = some (Node.mk b' 0 0 []))) := by
  intro p
  induction p with
  | nil =>
    intro t q e hq
    rw [Node.get?_nil] at hq
    cases hq
    cases hfm : findMove t.state t.child (all_moves e).1 with
    | none =>
      have hexp : Node.expandAt [] t e = (t, t.state, none, (all_moves e).2) := by
        rw [expandAt_nil, hfm]
      rw [hexp]
      exact ⟨rfl, Or.inl ⟨rfl, rfl, rfl, rfl⟩⟩
    | some b' =>
      have hexp : Node.expandAt [] t e
          = (Node.mk t.state t.win t.visit (t.child ++ [Node.mk b' 0 0 []]), b',
              some t.child.length, (all_moves e).2) := by
        rw [expandAt_nil, hfm]
      rw [hexp]
      refine ⟨rfl, Or.inr ⟨b', rfl, rfl, rfl, ?_⟩⟩
      rw [List.nil_append]
      apply Node.get?_single
      show (t.child ++ [Node.mk b' 0 0 []])[t.child.length]? = some (Node.mk b' 0 0 [])
      exact List.getElem?_concat_length t.child (Node.mk b' 0 0 [])
  | cons i rest ih =>
    intro t q e hq
    rw [Node.get?_cons] at hq
    cases hch : t.child[i]? with
    | none => rw [hch] at hq; cases hq
    | some ch =>
      rw [hch] at hq
      have hexp : Node.expandAt (i :: rest) t e
          = (Node.mk t.state t.win t.visit (t.child.set i (Node.expandAt rest ch e).1),
              (Node.expandAt rest ch e).2.1, (Node.expandAt rest ch e).2.2.1,
              (Node.expandAt rest ch e).2.2.2) := by
        rw [expandAt_cons, hch]
      rw [hexp]
      obtain ⟨heng, hcase⟩ := ih ch q e hq
      refine ⟨heng, ?_⟩
      rcases hcase with ⟨hfm, htree, hboard, hcreated⟩ | ⟨b', hfm, hboard, hcreated, hget⟩
      · left
        refine ⟨hfm, ?_, hboard, hcreated⟩
        rw [htree, list_set_getElem?_self hch, Node.eta]
      · right
        refine ⟨b', hfm, hboard, hcreated, ?_⟩
        rw [List.cons_append, Node.get?_cons]
        simp only [Node.child_mk]
        rw [List.getElem?_set_self (getElem?_lt hch)]
        exact hget

theorem expandAt_get_cases : ∀ (p : List Nat) (t q : Node) (e : Engine),
    t.get? p = some q →
    ∀ r q1, (Node.expandAt p t e).1.get? r = some q1 →
      (∃ q0, t.get? r = some q0 ∧ q1.visit = q0.visit ∧ q1.win = q0.win) ∨
      (r = p ++ [q.child.length] ∧ q1 = Node.mk (Node.expandAt p t e).2.1 0 0 []) := by
  intro p
  induction p with
  | nil =>
    intro t q e hq r q1 h1
    rw [Node.get?_nil] at hq
    cases hq
    cases hfm : findMove t.state t.child (all_moves e).1 with
    | none =>
      have hexp : Node.expandAt [] t e = (t, t.state, none, (all_moves e).2) := by
        rw [expandAt_nil, hfm]
      rw [hexp] at h1
      exact Or.inl ⟨q1, h1, rfl, rfl⟩
    | some b' =>
      have hexp : Node.expandAt [] t e
          = (Node.mk t.state t.win t.visit (t.child ++ [Node.mk b' 0 0 []]), b',
              some t.child.length, (all_moves e).2) := by
        rw [expandAt_nil, hfm]
      rw [hexp] at h1 ⊢
      cases r with
      | nil =>
        rw [Node.get?_nil] at h1
        cases h1
        exact Or.inl ⟨t, Node.get?_nil t, rfl, rfl⟩
      | cons k r' =>
        rw [Node.get?_cons] at h1
        simp only [Node.child_mk] at h1
        rcases Nat.lt_trichotomy k t.child.length with hk | hk | hk
        · rw [List.getElem?_append, if_pos hk] at h1
          left
          cases hck : t.child[k]? with
          | none => rw [hck] at h1; cases h1
          | some ck =>
            rw [hck] at h1
            refine ⟨q1, ?_, rfl, rfl⟩
            rw [Node.get?_cons, hck]
            exact h1
        · subst hk
          rw [List.getElem?_concat_length] at h1
          have h1n : (Node.mk b' 0 0 []).get? r' = some q1 := h1
          cases r' with
          | nil =>
            rw [Node.get?_nil] at h1n
            cases h1n
            exact Or.inr ⟨rfl, rfl⟩
          | cons k2 r2 =>
            rw [Node.get?_cons] at h1n
            simp at h1n
        · rw [List.getElem?_append, if_neg (by omega)] at h1
          cases hks : [Node.mk b' 0 0 []][k - t.child.length]? with
          | none => rw [hks] at h1; cases h1
          | some x =>
            exfalso
            have hlt := getElem?_lt hks
            simp at hlt
            omega
  | cons i rest ih =>
    intro t q e hq r q1 h1
    rw [Node.get?_cons] at hq
    cases hch : t.child[i]? with
    | none => rw [hch] at hq; cases hq
    | some ch =>
      rw [hch] at hq
      have hexp : Node.expandAt (i :: rest) t e
          = (Node.mk t.state t.win t.visit (t.child.set i (Node.expandAt rest ch e).1),
              (Node.expandAt rest ch e).2.1, (Node.expandAt rest ch e).2.2.1,
              (Node.expandAt rest ch e).2.2.2) := by
        rw [expandAt_cons, hch]
      rw [hexp] at h1 ⊢
      cases r with
      | nil =>
        rw [Node.get?_nil] at h1
        cases h1
        exact Or.inl ⟨t, Node.get?_nil t, rfl, rfl⟩
      | cons k r' =>
        rw [Node.get?_cons] at h1
        simp only [Node.child_mk] at h1
        by_cases hki : k = i
        · subst hki
          rw [List.getElem?_set_self (getElem?_lt hch)] at h1
          rcases ih ch q e hq r' q1 h1 with ⟨q0, hq0, hv, hw⟩ | ⟨hr', hq1⟩
          · left
            refine ⟨q0, ?_, hv, hw⟩
            rw [Node.get?_cons, hch]
            exact hq0
          · right
            rw [hr']
            exact ⟨rfl, hq1⟩
        · rw [List.getElem?_set_ne (fun hh => hki hh.symm)] at h1
          left
          cases hck : t.child[k]? with
          | none => rw [hck] at h1; cases h1
          | some ck =>
            rw [hck] at h1
            refine ⟨q1, ?_, rfl, rfl⟩
            rw [Node.get?_cons, hck]
            exact h1

theorem expandAt_childVisitSum : ∀ (p : List Nat) (t q : Node) (e : Engine),
    t.get? p = some q →
    childVisitSum (Node.expandAt p t e).1 = childVisitSum t := by
  intro p
  cases p with
  | nil =>
    intro t q e hq
    rw [expandAt_nil]
    cases hfm : findMove t.state t.child (all_moves e).1 with
    | none => rfl
    | some b' =>
      show ((t.child ++ [Node.mk b' 0 0 []]).map (fun cc => cc.visit)).sum
        = (t.child.map (fun cc => cc.visit)).sum
      simp
  | cons i rest =>
    intro t q e hq
    rw [Node.get?_cons] at hq
    cases hch : t.child[i]? with
    | none => rw [hch] at hq; cases hq
    | some ch =>
      rw [expandAt_cons, hch]
      show ((t.child.set i (Node.expandAt rest ch e).1).map (fun cc => cc.visit)).sum
        = (t.child.map (fun cc => cc.visit)).sum
      have hv : (Node.expandAt rest ch e).1.visit = ch.visit :=
        (expandAt_root_fields rest ch e).2.2
      have hsum := sum_map_set Node.visit hch (a := (Node.expandAt rest ch e).1)
      show (List.map Node.visit (t.child.set i (Node.expandAt rest ch e).1)).sum
        = (List.map Node.visit t.child).sum
      omega

theorem is_selectable_true_iff {t : Node} :
    t.is_selectable = true ↔
      legal_moves t.state ≠ 0 ∧ legal_moves t.state = t.child.length := by
  unfold Node.is_selectable
  by_cases h0 : legal_moves t.state = 0
  · simp [h0]
  · simp [h0]

theorem is_selectable_false_iff {t : Node} :
    t.is_selectable = false ↔
      legal_moves t.state = 0 ∨ legal_moves t.state ≠ t.child.length := by
  rw [← Bool.not_eq_true, is_selectable_true_iff]
  tauto

theorem AllNodes_single {P : Node → Prop} {b : Board} (h : P (Node.mk b 0 0 [])) :
    AllNodes P (Node.mk b 0 0 []) := by
  apply AllNodes_mk h
  intro i ch hc
  simp at hc

theorem nodup_append_single {l : List Nat} {a : Nat} (hl : l.Nodup) (ha : a ∉ l) :
    (l ++ [a]).Nodup := by
  simp [List.nodup_append, hl, ha]

/-- The local expansion produced by `node::expand` at a non-selectable node
preserves the tree invariant. -/
theorem localExpand_AllNodes {q : Node} {b' : Board} {moves : List Nat}
    (hinv : AllNodes (fun x => x.win ≤ x.visit ∧ structOK x) q)
    (hfm : findMove q.state q.child moves = some b')
    (hsel : q.is_selectable = false) :
    AllNodes (fun x => x.win ≤ x.visit ∧ structOK x)
      (Node.mk q.state q.win q.visit (q.child ++ [Node.mk b' 0 0 []])) := by
  obtain ⟨m, hmem, hp, hnochild⟩ := findMove_some_spec hfm
  have hroot := AllNodes_self hinv
  obtain ⟨hwv, hstr⟩ := hroot
  obtain ⟨hg, hnd, hpl, hsafe⟩ := hstr
  have hm81 : m < 81 := hg.2 m (Board.place_mem hp)
  have hlegal_ne : legal_moves q.state ≠ 0 := by
    intro h0
    have := legal_moves_eq_zero_iff.mp h0 m hm81
    rw [hp] at this
    cases this
  have hnotfull : legal_moves q.state ≠ q.child.length := by
    rcases is_selectable_false_iff.mp hsel with h0 | hne
    · exact absurd h0 hlegal_ne
    · exact hne
  have hleaf : ∀ cc ∈ q.child, cc.child = [] := by
    rcases hsafe with hfull | hleaf
    · exact absurd hfull.symm hnotfull
    · exact hleaf
  have hlast : b'.last_move = m := Board.place_last_move hp
  have hgood' : goodBoard b' := Board.place_good hg hp
  apply AllNodes_mk
  · refine ⟨hwv, hg, ?_, ?_, ?_⟩
    · show (List.map (fun cc => cc.state.last_move)
        (q.child ++ [Node.mk b' 0 0 []])).Nodup
      rw [List.map_append]
      apply nodup_append_single hnd
      intro hmm
      simp only [List.map_cons, List.map_nil, List.mem_map] at hmm
      obtain ⟨cc, hcc, hcceq⟩ := hmm
      simp only [Node.state_mk, hlast] at hcceq
      exact hnochild cc hcc hcceq
    · intro cc hcc
      rcases List.mem_append.mp hcc with hmem2 | hmem2
      · exact hpl cc hmem2
      · have : cc = Node.mk b' 0 0 [] := by simpa using hmem2
        subst this
        simp only [Node.state_mk, hlast]
        exact hp
    · by_cases hfull2 : (q.child ++ [Node.mk b' 0 0 []]).length = legal_moves q.state
      · exact Or.inl hfull2
      · right
        intro cc hcc
        rcases List.mem_append.mp hcc with hmem2 | hmem2
        · exact hleaf cc hmem2
        · have : cc = Node.mk b' 0 0 [] := by simpa using hmem2
          subst this
          rfl
  · intro i ch hc
    rcases Nat.lt_trichotomy i q.child.length with hk | hk | hk
    · rw [List.getElem?_append, if_pos hk] at hc
      exact AllNodes_child hinv hc
    · subst hk
      rw [List.getElem?_concat_length] at hc
      cases hc
      apply AllNodes_single
      refine ⟨Nat.le_refl 0, hgood', by simp, by simp, Or.inr (by simp)⟩
    · rw [List.getElem?_append, if_neg (by omega)] at hc
      exfalso
      have hlt := getElem?_lt hc
      simp at hlt
      omega

theorem expandAt_AllNodes : ∀ (p : List Nat) (t q : Node) (e : Engine),
    AllNodes (fun x => x.win ≤ x.visit ∧ structOK x) t →
    t.get? p = some q →
    q.is_selectable = false →
    (∀ r qq, pathLe r p = true → r ≠ p → t.get? r = some qq → qq.is_selectable = true) →
    AllNodes (fun x => x.win ≤ x.visit ∧ structOK x) (Node.expandAt p t e).1 := by
  intro p
  induction p with
  | nil =>
    intro t q e hinv hq hsel _
    rw [Node.get?_nil] at hq
    cases hq
    cases hfm : findMove t.state t.child (all_moves e).1 with
    | none =>
      have hexp : Node.expandAt [] t e = (t, t.state, none, (all_moves e).2) := by
        rw [expandAt_nil, hfm]
      rw [hexp]
      exact hinv
    | some b' =>
      have hexp : Node.expandAt [] t e
          = (Node.mk t.state t.win t.visit (t.child ++ [Node.mk b' 0 0 []]), b',
              some t.child.length, (all_moves e).2) := by
        rw [expandAt_nil, hfm]
      rw [hexp]
      exact localExpand_AllNodes hinv hfm hsel
  | cons i rest ih =>
    intro t q e hinv hq hsel hint
    rw [Node.get?_cons] at hq
    cases hch : t.child[i]? with
    | none => rw [hch] at hq; cases hq
    | some ch =>
      rw [hch] at hq
      have hexp : Node.expandAt (i :: rest) t e
          = (Node.mk t.state t.win t.visit (t.child.set i (Node.expandAt rest ch e).1),
              (Node.expandAt rest ch e).2.1, (Node.expandAt rest ch e).2.2.1,
              (Node.expandAt rest ch e).2.2.2) := by
        rw [expandAt_cons, hch]
      rw [hexp]
      have htsel : t.is_selectable = true := by
        refine hint [] t ?_ ?_ (Node.get?_nil t)
        · rfl
        · intro hcontra; cases hcontra
      have hroot := AllNodes_self hinv
      have hstate : (Node.expandAt rest ch e).1.state = ch.state :=
        (expandAt_root_fields rest ch e).1
      have hmap : (t.child.set i (Node.expandAt rest ch e).1).map
          (fun cc => cc.state.last_move) = t.child.map (fun cc => cc.state.last_move) := by
        rw [List.map_set]
        have hval : (t.child.map (fun cc => cc.state.last_move)).set i
            ((Node.expandAt rest ch e).1.state.last_move)
            = t.child.map (fun cc => cc.state.last_move) := by
          rw [hstate]
          apply list_set_getElem?_self
          rw [List.getElem?_map, hch]
          rfl
        exact hval
      apply AllNodes_mk
      · refine ⟨hroot.1, hroot.2.1, ?_, ?_, ?_⟩
        · show (List.map (fun cc => cc.state.last_move)
            (t.child.set i (Node.expandAt rest ch e).1)).Nodup
          rw [hmap]
          exact hroot.2.2.1
        · intro cc hcc
          rcases List.mem_or_eq_of_mem_set hcc with hmem | hceq
          · exact hroot.2.2.2.1 cc hmem
          · subst hceq
            show t.state.place (Node.expandAt rest ch e).1.state.last_move
              = some (Node.expandAt rest ch e).1.state
            rw [hstate]
            exact hroot.2.2.2.1 ch (List.getElem?_mem hch)
        · left
          have hfull := (is_selectable_true_iff.mp htsel).2
          show (t.child.set i (Node.expandAt rest ch e).1).length = legal_moves t.state
          rw [List.length_set]
          exact hfull.symm
      · intro k chx hc
        by_cases hki : k = i
        · subst hki
          rw [List.getElem?_set_self (getElem?_lt hch)] at hc
          cases hc
          apply ih ch q e (AllNodes_child hinv hch) hq hsel
          intro r qq hr hrne hget
          refine hint (k :: r) qq ?_ ?_ ?_
          · show (k == k && pathLe r rest) = true
            simp [hr]
          · intro hcontra
            apply hrne
            cases hcontra
            rfl
          · rw [Node.get?_cons, hch]
            exact hget
        · rw [List.getElem?_set_ne (fun hh => hki hh.symm)] at hc
          exact AllNodes_child hinv hc

/-! ### Lemmas about `node::ucb_score` and `node::select` -/

theorem FP.div_val_val (a b : FQ) :
    FP.div (FP.val a) (FP.val b) =
      (if b.num = 0 then
        (if a.num = 0 then FP.nan else if 0 < a.num then FP.pinf else FP.ninf)
       else if 0 < b.num then FP.val ⟨a.num * b.den, a.den * b.num.natAbs⟩
       else FP.val ⟨-(a.num * b.den), a.den * b.num.natAbs⟩) := rfl

theorem FP.add_val_val (a b : FQ) :
    FP.add (FP.val a) (FP.val b)
      = FP.val ⟨a.num * b.den + b.num * a.den, a.den * b.den⟩ := rfl

theorem FP.mul_val_val (a b : FQ) :
    FP.mul (FP.val a) (FP.val b) = FP.val ⟨a.num * b.num, a.den * b.den⟩ := rfl

theorem FP.sqrt_val (q : FQ) :
    FP.sqrt (FP.val q) = if q.num < 0 then FP.nan else FP.val q := rfl

theorem FP.gt_val_negOne {n : Int} {d : Nat} (hn : 0 ≤ n) (hd : 0 < d) :
    FP.gt (FP.val ⟨n, d⟩) (FP.val ⟨-1, 1⟩) = true := by
  show FQ.ltB ⟨-1, 1⟩ ⟨n, d⟩ = true
  unfold FQ.ltB
  simp only [decide_eq_true_eq]
  show (-1 : Int) * (d : Int) < n * ((1 : Nat) : Int)
  have : (0 : Int) < (d : Int) := by exact_mod_cast hd
  simp only [Int.ofNat_one, Int.mul_one]
  omega

theorem nonnegFP_div {a : Int} {da : Nat} {b : Int} {db : Nat}
    (hb : 0 < b) :
    FP.div (FP.val ⟨a, da⟩) (FP.val ⟨b, db⟩)
      = FP.val ⟨a * db, da * b.natAbs⟩ := by
  rw [FP.div_val_val]
  rw [if_neg (show ¬(b = 0) by omega), if_pos (show 0 < b from hb)]

theorem nonnegFP_sqrt {a : Int} {da : Nat} (ha : 0 ≤ a) :
    FP.sqrt (FP.val ⟨a, da⟩) = FP.val ⟨a, da⟩ := by
  rw [FP.sqrt_val, if_neg (show ¬(a < 0) by omega)]

theorem ucb_score_spec {w v pv : Nat} (hv : 1 ≤ v) (hpv : 1 ≤ pv) :
    ∃ n d, ucb_score w v pv = FP.val ⟨n, d⟩ ∧ 0 ≤ n ∧ 0 < d := by
  obtain ⟨pv', rfl⟩ : ∃ pv', pv = pv' + 1 := ⟨pv - 1, by omega⟩
  have hvpos : (0 : Int) < ((v : Nat) : Int) := by exact_mod_cast hv
  have hstep : ucb_score w v (pv' + 1)
      = FP.add (FP.div (FP.val ⟨(w : Int), 1⟩) (FP.val ⟨(v : Int), 1⟩))
          (FP.mul (FP.val ⟨577, 408⟩)
            (FP.sqrt (FP.div (FP.val ⟨(pv' : Int), 1⟩) (FP.val ⟨(v : Int), 1⟩)))) := rfl
  rw [hstep]
  rw [nonnegFP_div hvpos, nonnegFP_div hvpos]
  rw [nonnegFP_sqrt (by positivity)]
  rw [FP.mul_val_val, FP.add_val_val]
  have habs : ((v : Int)).natAbs = v := Int.natAbs_ofNat v
  refine ⟨_, _, rfl, ?_, ?_⟩
  · show (0 : Int) ≤ (w : Int) * (1 : Nat) * ((408 : Nat) * ((1 : Nat) * ((v : Int)).natAbs))
      + (577 : Int) * ((pv' : Int) * (1 : Nat)) * ((1 : Nat) * ((v : Int)).natAbs)
    positivity
  · show 0 < (1 : Nat) * ((v : Int)).natAbs * ((408 : Nat) * ((1 : Nat) * ((v : Int)).natAbs))
    rw [habs]
    have hvpos' : 0 < v := hv
    positivity

theorem argmaxGo_some_of_best {pv : Nat} : ∀ (l : List Node) (i : Nat) (ms : FP) (b0 : Nat),
    (argmaxGo pv l i ms (some b0)).isSome = true := by
  intro l
  induction l with
  | nil => intro i ms b0; rfl
  | cons ch rest ih =>
    intro i ms b0
    unfold argmaxGo
    by_cases hgt : FP.gt (ucb_score ch.win ch.visit pv) ms = true
    · rw [if_pos hgt]; exact ih (i + 1) _ i
    · rw [if_neg hgt]; exact ih (i + 1) ms b0

theorem argmaxGo_pred {pv : Nat} (P : Nat → Prop) : ∀ (l : List Node) (i : Nat) (ms : FP)
    (best : Option Nat),
    (∀ b0, best = some b0 → P b0) → (∀ d, d < l.length → P (i + d)) →
    ∀ j, argmaxGo pv l i ms best = some j → P j := by
  intro l
  induction l with
  | nil =>
    intro i ms best hbest _ j hj
    exact hbest j hj
  | cons ch rest ih =>
    intro i ms best hbest helem j hj
    unfold argmaxGo at hj
    by_cases hgt : FP.gt (ucb_score ch.win ch.visit pv) ms = true
    · rw [if_pos hgt] at hj
      refine ih (i + 1) _ (some i) ?_ ?_ j hj
      · intro b0 hb0
        cases hb0
        have := helem 0 (by simp)
        simpa using this
      · intro d hd
        have := helem (d + 1) (by simp; omega)
        have harith : i + (d + 1) = i + 1 + d := by omega
        rwa [harith] at this
    · rw [if_neg hgt] at hj
      refine ih (i + 1) ms best hbest ?_ j hj
      intro d hd
      have := helem (d + 1) (by simp; omega)
      have harith : i + (d + 1) = i + 1 + d := by omega
      rwa [harith] at this

theorem argmaxIdx_mem {pv : Nat} {cs : List Node} {j : Nat}
    (h : argmaxIdx pv cs = some j) : j < cs.length := by
  refine argmaxGo_pred (fun k => k < cs.length) cs 0 (FP.val ⟨-1, 1⟩) none ?_ ?_ j h
  · intro b0 hb0; cases hb0
  · intro d hd; simpa using hd

theorem argmaxIdx_isSome {pv : Nat} {cs : List Node} (hne : cs ≠ [])
    (hsc : ∀ ch ∈ cs, FP.gt (ucb_score ch.win ch.visit pv) (FP.val ⟨-1, 1⟩) = true) :
    (argmaxIdx pv cs).isSome = true := by
  cases cs with
  | nil => exact absurd rfl hne
  | cons ch rest =>
    show (argmaxGo pv (ch :: rest) 0 (FP.val ⟨-1, 1⟩) none).isSome = true
    unfold argmaxGo
    rw [if_pos (hsc ch (List.mem_cons_self ch rest))]
    exact argmaxGo_some_of_best rest 1 _ 0

theorem pathLe_nil_right {r : List Nat} (h : pathLe r [] = true) : r = [] := by
  cases r with
  | nil => rfl
  | cons a b => cases h

theorem pathLe_cons_cons (i j : Nat) (r f : List Nat) :
    pathLe (i :: r) (j :: f) = (i == j && pathLe r f) := rfl

theorem fresh_not_selectable {t : Node} (h : t.child = []) :
    t.is_selectable = false := by
  rw [is_selectable_false_iff]
  by_cases h0 : legal_moves t.state = 0
  · exact Or.inl h0
  · right
    rw [h]
    simpa using h0

theorem selectFuel_succ (fuel : Nat) (t : Node) :
    selectFuel (fuel + 1) t =
      (if t.is_selectable then
        match argmaxIdx t.visit t.child with
        | some i =>
          match t.child[i]? with
          | some ch =>
            match selectFuel fuel ch with
            | some pr =>
              some (i :: pr.1, (t.child.map (fun c => (c.win, c.visit, t.visit))) ++ pr.2)
            | none => none
          | none => none
        | none => none
      else some ([], [])) := rfl

theorem selectFuel_spec : ∀ (fuel : Nat) (t : Node),
    Inv t → Inv1 t → t.state.free.length < fuel →
    ∃ p evs q, selectFuel fuel t = some (p, evs) ∧ t.get? p = some q ∧
      q.is_selectable = false ∧
      (∀ r qq, pathLe r p = true → r ≠ p → t.get? r = some qq →
        qq.is_selectable = true) ∧
      (∀ ev ∈ evs, 1 ≤ ev.2.1 ∧ 1 ≤ ev.2.2) := by
  intro fuel
  induction fuel with
  | zero => intro t _ _ h; omega
  | succ fuel ih =>
    intro t hinv hinv1 hlen
    by_cases hsel : t.is_selectable = true
    · have hfull := is_selectable_true_iff.mp hsel
      have hne : t.child ≠ [] := by
        intro h0
        rw [h0] at hfull
        simp at hfull
      have hroot1 : 1 ≤ t.visit := AllNodes_self hinv1
      have hsc : ∀ ch ∈ t.child,
          FP.gt (ucb_score ch.win ch.visit t.visit) (FP.val ⟨-1, 1⟩) = true := by
        intro ch hch
        obtain ⟨k, hk⟩ := List.getElem?_of_mem hch
        have hch1 : 1 ≤ ch.visit := AllNodes_self (AllNodes_child hinv1 hk)
        obtain ⟨n, d, heq, hn, hd⟩ := ucb_score_spec hch1 hroot1
        rw [heq]
        exact FP.gt_val_negOne hn hd
      obtain ⟨j, hj⟩ := Option.isSome_iff_exists.mp (argmaxIdx_isSome hne hsc)
      have hjlt := argmaxIdx_mem hj
      obtain ⟨ch, hch⟩ : ∃ ch, t.child[j]? = some ch := by
        rw [List.getElem?_eq_getElem hjlt]
        exact ⟨_, rfl⟩
      have hchInv := AllNodes_child hinv hch
      have hchInv1 := AllNodes_child hinv1 hch
      have hfree : ch.state.free.length < fuel := by
        have hpl := (AllNodes_self hinv).2.2.2.1 ch (List.getElem?_mem hch)
        have := Board.place_free_length hpl
        omega
      obtain ⟨p', evs', q, hsf, hq, hqsel, hint, hevs⟩ := ih ch hchInv hchInv1 hfree
      refine ⟨j :: p', (t.child.map (fun c => (c.win, c.visit, t.visit))) ++ evs', q,
        ?_, ?_, hqsel, ?_, ?_⟩
      · rw [selectFuel_succ, if_pos hsel, hj]
        show (match t.child[j]? with
          | some ch =>
            match selectFuel fuel ch with
            | some pr =>
              some (j :: pr.1, (t.child.map (fun c => (c.win, c.visit, t.visit))) ++ pr.2)
            | none => none
          | none => none)
          = some (j :: p', (t.child.map (fun c => (c.win, c.visit, t.visit))) ++ evs')
        rw [hch]
        show (match selectFuel fuel ch with
          | some pr =>
            some (j :: pr.1, (t.child.map (fun c => (c.win, c.visit, t.visit))) ++ pr.2)
          | none => none)
          = some (j :: p', (t.child.map (fun c => (c.win, c.visit, t.visit))) ++ evs')
        rw [hsf]
      · rw [Node.get?_cons, hch]
        exact hq
      · intro r qq hr hrne hget
        cases r with
        | nil =>
          rw [Node.get?_nil] at hget
          cases hget
          exact hsel
        | cons k r' =>
          rw [pathLe_cons_cons] at hr
          simp only [Bool.and_eq_true, beq_iff_eq] at hr
          obtain ⟨hkj, hr'⟩ := hr
          subst hkj
          rw [Node.get?_cons, hch] at hget
          refine hint r' qq hr' ?_ hget
          intro hcontra
          apply hrne
          rw [hcontra]
      · intro ev hev
        rcases List.mem_append.mp hev with hm | hm
        · obtain ⟨cc, hcc, hcceq⟩ := List.mem_map.mp hm
          obtain ⟨k, hk⟩ := List.getElem?_of_mem hcc
          have hcc1 : 1 ≤ cc.visit := AllNodes_self (AllNodes_child hinv1 hk)
          rw [← hcceq]
          exact ⟨hcc1, hroot1⟩
        · exact hevs ev hm
    · have hsel' : t.is_selectable = false := by
        simpa using hsel
      refine ⟨[], [], t, ?_, Node.get?_nil t, hsel', ?_, ?_⟩
      · rw [selectFuel_succ, if_neg hsel]
      · intro r qq hr hrne _
        exact absurd (pathLe_nil_right hr) hrne
      · intro ev hev
        cases hev

theorem selectI_spec {t : Node} (hinv : Inv t) (hinv1 : Inv1 t) :
    ∃ p evs q, t.selectI = some (p, evs) ∧ t.get? p = some q ∧
      q.is_selectable = false ∧
      (∀ r qq, pathLe r p = true → r ≠ p → t.get? r = some qq →
        qq.is_selectable = true) ∧
      (∀ ev ∈ evs, 1 ≤ ev.2.1 ∧ 1 ≤ ev.2.2) := by
  have hgood : goodBoard t.state := (AllNodes_self hinv).2.1
  have hlen := goodBoard_free_le t.state hgood
  exact selectFuel_spec 82 t hinv hinv1 (by omega)

theorem selectI_not_selectable {t : Node} (h : t.is_selectable = false) :
    t.selectI = some ([], []) := by
  show selectFuel (81 + 1) t = some ([], [])
  rw [selectFuel_succ]
  rw [if_neg (by rw [h]; intro hc; cases hc)]

/-! ### Lemmas about `node::simulate` -/

theorem firstLegal_cons (b : Board) (m : Nat) (rest : List Nat) :
    firstLegal b (m :: rest) = (match b.place m with
      | some b' => some b'
      | none => firstLegal b rest) := rfl

theorem firstLegal_none_iff {b : Board} : ∀ {ms : List Nat},
    firstLegal b ms = none ↔ ∀ m ∈ ms, b.place m = none := by
  intro ms
  induction ms with
  | nil => simp [firstLegal]
  | cons m rest ih =>
    cases hp : b.place m with
    | some b' =>
      have hstep : firstLegal b (m :: rest) = some b' := by
        rw [firstLegal_cons, hp]
      rw [hstep]
      constructor
      · intro h; cases h
      · intro h
        exfalso
        have := h m (List.mem_cons_self m rest)
        rw [hp] at this
        cases this
    | none =>
      have hstep : firstLegal b (m :: rest) = firstLegal b rest := by
        rw [firstLegal_cons, hp]
      rw [hstep, ih]
      constructor
      · intro h m' hm'
        rcases List.mem_cons.mp hm' with h0 | hr
        · subst h0; exact hp
        · exact h m' hr
      · intro h m' hm'
        exact h m' (List.mem_cons_of_mem m hm')

theorem firstLegal_some_spec {b : Board} : ∀ {ms : List Nat} {b' : Board},
    firstLegal b ms = some b' → ∃ m, m ∈ ms ∧ b.place m = some b' := by
  intro ms
  induction ms with
  | nil => intro b' h; cases h
  | cons m rest ih =>
    intro b' h
    cases hp : b.place m with
    | some b2 =>
      have hstep : firstLegal b (m :: rest) = some b2 := by
        rw [firstLegal_cons, hp]
      rw [hstep] at h
      cases h
      exact ⟨m, List.mem_cons_self m rest, hp⟩
    | none =>
      have hstep : firstLegal b (m :: rest) = firstLegal b rest := by
        rw [firstLegal_cons, hp]
      rw [hstep] at h
      obtain ⟨m', hm', hp'⟩ := ih h
      exact ⟨m', List.mem_cons_of_mem m hm', hp'⟩

theorem playoutFuel_succ (fuel : Nat) (b : Board) (ms : List Nat) :
    playoutFuel (fuel + 1) b ms = (match firstLegal b ms with
      | some b' => playoutFuel fuel b' ms
      | none => b) := rfl

theorem playoutFuel_reaches : ∀ (fuel : Nat) (b : Board) (ms : List Nat),
    Reaches b (playoutFuel fuel b ms) := by
  intro fuel
  induction fuel with
  | zero => intro b ms; exact Reaches.refl b
  | succ fuel ih =>
    intro b ms
    rw [playoutFuel_succ]
    cases hfl : firstLegal b ms with
    | none => exact Reaches.refl b
    | some b' =>
      obtain ⟨m, _, hp⟩ := firstLegal_some_spec hfl
      exact Reaches.step m hp (ih b' ms)

theorem playoutFuel_terminal : ∀ (fuel : Nat) (b : Board) (ms : List Nat),
    goodBoard b → b.free.length < fuel →
    firstLegal (playoutFuel fuel b ms) ms = none := by
  intro fuel
  induction fuel with
  | zero => intro b ms _ h; omega
  | succ fuel ih =>
    intro b ms hg hlen
    rw [playoutFuel_succ]
    cases hfl : firstLegal b ms with
    | none => exact hfl
    | some b' =>
      obtain ⟨m, _, hp⟩ := firstLegal_some_spec hfl
      have hg' := Board.place_good hg hp
      have hlen' := Board.place_free_length hp
      exact ih b' ms hg' (by omega)

theorem Reaches_good {b c : Board} (hr : Reaches b c) : goodBoard b → goodBoard c := by
  induction hr with
  | refl b => exact id
  | step m hp _ ih => exact fun hg => ih (Board.place_good hg hp)

theorem simulate_spec (b : Board) (e : Engine) (hg : goodBoard b) :
    ∃ endB : Board, Reaches b endB ∧ endB.free = [] ∧ legal_moves endB = 0 ∧
      (simulate b e).1 = Player.other endB.who_take_turns := by
  have hlen := goodBoard_free_le b hg
  have hreach := playoutFuel_reaches 82 b (all_moves e).1
  have hnone := playoutFuel_terminal 82 b (all_moves e).1 hg (by omega)
  have hgood' := Reaches_good hreach hg
  have hfree : (playoutFuel 82 b (all_moves e).1).free = [] := by
    cases hfc : (playoutFuel 82 b (all_moves e).1).free with
    | nil => rfl
    | cons x xs =>
      exfalso
      have hx : x ∈ (playoutFuel 82 b (all_moves e).1).free := by
        rw [hfc]; exact List.mem_cons_self x xs
      have hx81 : x < 81 := hgood'.2 x hx
      have hxm : x ∈ (all_moves e).1 := (all_moves_mem e x).mpr hx81
      have hpn := firstLegal_none_iff.mp hnone x hxm
      unfold Board.place at hpn
      simp [hx] at hpn
  refine ⟨playoutFuel 82 b (all_moves e).1, hreach, hfree,
    legal_moves_of_empty_free hfree, ?_⟩
  show (if (playoutFuel 82 b (all_moves e).1).who_take_turns == Player.white
    then Player.black else Player.white) = _
  cases (playoutFuel 82 b (all_moves e).1).who_take_turns <;> rfl

theorem simulate_terminal {b : Board} (h : legal_moves b = 0) (e : Engine) :
    (simulate b e).1 = Player.other b.who_take_turns := by
  have hnone : firstLegal b (all_moves e).1 = none := by
    rw [firstLegal_none_iff]
    intro m hm
    exact legal_moves_eq_zero_iff.mp h m ((all_moves_mem e m).mp hm)
  have hpl : playoutFuel 82 b (all_moves e).1 = b := by
    show playoutFuel (81 + 1) b (all_moves e).1 = b
    rw [playoutFuel_succ, hnone]
  show (if (playoutFuel 82 b (all_moves e).1).who_take_turns == Player.white
    then Player.black else Player.white) = _
  rw [hpl]
  cases hw : b.who_take_turns <;> rfl

/-! ### Lemmas about `node::take_action` -/

theorem list_decomp_at {α : Type} : ∀ (l : List α) (j : Nat) (x : α), l[j]? = some x →
    l = l.take j ++ x :: l.drop (j + 1) := by
  intro l
  induction l with
  | nil => intro j x h; cases h
  | cons y ys ih =>
    intro j x h
    cases j with
    | zero =>
      simp only [List.getElem?_cons_zero, Option.some_inj] at h
      rw [h]
      rfl
    | succ j =>
      simp only [List.getElem?_cons_succ] at h
      show y :: ys = y :: ys.take j ++ x :: ys.drop (j + 1)
      rw [List.cons_append, ← ih j x h]

theorem take_action_nil {t : Node} (h : t.child = []) : t.take_action = Action.none := by
  show (match takeGo t.child (-1) none with
    | some bn => Action.place bn.state.last_move t.state.who_take_turns
    | none => Action.none) = Action.none
  rw [h]
  rfl

/-! ### Expansion always succeeds below a non-terminal, non-full node -/

theorem findMove_none_of_terminal {q : Node} (e : Engine)
    (h : legal_moves q.state = 0) :
    findMove q.state q.child (all_moves e).1 = none := by
  rw [findMove_none_iff]
  intro m hm
  exact Or.inr (legal_moves_eq_zero_iff.mp h m ((all_moves_mem e m).mp hm))

theorem child_moves_subset {q : Node} (hst : structOK q) :
    (q.child.map (fun cc => cc.state.last_move)).Subperm
      ((List.range 81).filter (fun m => (q.state.place m).isSome)) := by
  apply List.subperm_of_subset hst.2.1
  intro m hm
  obtain ⟨cc, hcc, hcceq⟩ := List.mem_map.mp hm
  have hplace := hst.2.2.1 cc hcc
  rw [hcceq] at hplace
  rw [List.mem_filter]
  refine ⟨List.mem_range.mpr (hst.1.2 m (Board.place_mem hplace)), ?_⟩
  rw [hplace]
  rfl

theorem expand_finds_move {q : Node} (e : Engine) (hst : structOK q)
    (hlegal : legal_moves q.state ≠ 0)
    (hnotfull : q.child.length ≠ legal_moves q.state) :
    findMove q.state q.child (all_moves e).1 ≠ none := by
  intro hnone
  have hleg : legal_moves q.state
      = ((List.range 81).filter (fun m => (q.state.place m).isSome)).length := rfl
  have hsub := child_moves_subset hst
  have hlen := hsub.length_le
  rw [List.length_map] at hlen
  by_cases hcover : ∀ m ∈ (List.range 81).filter (fun m => (q.state.place m).isSome),
      m ∈ q.child.map (fun cc => cc.state.last_move)
  · have hnd : ((List.range 81).filter (fun m => (q.state.place m).isSome)).Nodup :=
      (List.nodup_range 81).filter _
    have hsub2 := List.subperm_of_subset hnd hcover
    have hlen2 := hsub2.length_le
    rw [List.length_map] at hlen2
    omega
  · push_neg at hcover
    obtain ⟨m, hmf, hmnot⟩ := hcover
    have hm81 : m < 81 := List.mem_range.mp (List.mem_filter.mp hmf).1
    have hmsome : (q.state.place m).isSome = true := (List.mem_filter.mp hmf).2
    have hmm : m ∈ (all_moves e).1 := (all_moves_mem e m).mpr hm81
    rcases findMove_none_iff.mp hnone m hmm with ⟨ch, hch, hch2⟩ | hpn
    · exact hmnot (List.mem_map.mpr ⟨ch, hch, hch2⟩)
    · rw [hpn] at hmsome; cases hmsome

theorem child_moves_cover {q : Node} (hst : structOK q)
    (hfull : q.child.length = legal_moves q.state) :
    ∀ m, (q.state.place m).isSome = true → ∃ ch ∈ q.child, ch.state.last_move = m := by
  intro m hm
  have hm81 : m < 81 := by
    cases hp : q.state.place m with
    | none => rw [hp] at hm; cases hm
    | some b2 => exact hst.1.2 m (Board.place_mem hp)
  have hleg : legal_moves q.state
      = ((List.range 81).filter (fun m => (q.state.place m).isSome)).length := rfl
  have hsub := child_moves_subset hst
  have hperm : (q.child.map (fun cc => cc.state.last_move)).Perm
      ((List.range 81).filter (fun m => (q.state.place m).isSome)) := by
    apply hsub.perm_of_length_le
    rw [List.length_map]
    omega
  have hmem : m ∈ q.child.map (fun cc => cc.state.last_move) := by
    rw [hperm.mem_iff, List.mem_filter]
    exact ⟨List.mem_range.mpr hm81, hm⟩
  obtain ⟨ch, hch, hcheq⟩ := List.mem_map.mp hmem
  exact ⟨ch, hch, hcheq⟩

theorem expand_some_not_full {q : Node} {e : Engine} {b' : Board}
    (hst : structOK q)
    (hfm : findMove q.state q.child (all_moves e).1 = some b') :
    q.child.length ≠ legal_moves q.state ∧ legal_moves q.state ≠ 0 := by
  obtain ⟨m, _, hp, hnochild⟩ := findMove_some_spec hfm
  constructor
  · intro hfull
    obtain ⟨ch, hch, hcheq⟩ := child_moves_cover hst hfull m (by rw [hp]; rfl)
    exact hnochild ch hch hcheq
  · intro h0
    have := legal_moves_eq_zero_iff.mp h0 m (hst.1.2 m (Board.place_mem hp))
    rw [hp] at this
    cases this

theorem expand_some_children_leafless {q : Node} {e : Engine} {b' : Board}
    (hst : structOK q)
    (hfm : findMove q.state q.child (all_moves e).1 = some b') :
    ∀ cc ∈ q.child, cc.child = [] := by
  have hnf := (expand_some_not_full hst hfm).1
  rcases hst.2.2.2 with hfull | hleaf
  · exact absurd hfull hnf
  · exact hleaf

/-! ### One full MCTS iteration -/

theorem pathLe_refl : ∀ (r : List Nat), pathLe r r = true := by
  intro r
  induction r with
  | nil => rfl
  | cons i r ih =>
    rw [pathLe_cons_cons]
    simp [ih]

theorem get?_of_no_child {t : Node} (h : t.child = []) :
    ∀ r q0, t.get? r = some q0 → r = [] ∧ q0 = t := by
  intro r q0 hr
  cases r with
  | nil =>
    rw [Node.get?_nil] at hr
    cases hr
    exact ⟨rfl, rfl⟩
  | cons i r' =>
    rw [Node.get?_cons, h] at hr
    simp at hr

theorem updateTree_childVisitSum_nil (aw : Bool) (t : Node) :
    childVisitSum (Node.updateTree aw [] t) = childVisitSum t := rfl

theorem mctsIterI_eq {t : Node} {e : Engine} {p : List Nat}
    {evs : List (Nat × Nat × Nat)} (hselI : t.selectI = some (p, evs)) :
    mctsIterI t e = some
      (Node.updateTree
        ((simulate (Node.expandAt p t e).2.1 (Node.expandAt p t e).2.2.2).1
          == (Node.expandAt p t e).1.state.who_take_turns)
        (match (Node.expandAt p t e).2.2.1 with
         | some j => p ++ [j]
         | none => p)
        (Node.expandAt p t e).1,
       (simulate (Node.expandAt p t e).2.1 (Node.expandAt p t e).2.2.2).2, p,
       (Node.expandAt p t e).2.2.1) := by
  unfold mctsIterI
  rw [hselI]

theorem mctsIter_spec (t : Node) (e : Engine)
    (hinv : Inv t)
    (hv : Inv1 t ∨ (t.child = [] ∧ t.visit = 0)) :
    ∃ t' e' p created, mctsIterI t e = some (t', e', p, created) ∧
      Inv t' ∧ Inv1 t' ∧
      t'.state = t.state ∧ t'.visit = t.visit + 1 ∧
      childVisitSum t' = childVisitSum t
        + (if legal_moves t.state = 0 then 0 else 1) ∧
      ((p = [] ∧ created = none) ↔ legal_moves t.state = 0) := by
  obtain ⟨p, evs, q, hselI, hq, hqsel, hint, _⟩ : ∃ p evs q, t.selectI = some (p, evs) ∧
      t.get? p = some q ∧ q.is_selectable = false ∧
      (∀ r qq, pathLe r p = true → r ≠ p → t.get? r = some qq →
        qq.is_selectable = true) ∧
      (∀ ev ∈ evs, 1 ≤ ev.2.1 ∧ 1 ≤ ev.2.2) := by
    rcases hv with hinv1 | ⟨hch0, _⟩
    · exact selectI_spec hinv hinv1
    · have hns := fresh_not_selectable hch0
      refine ⟨[], [], t, selectI_not_selectable hns, Node.get?_nil t, hns, ?_, ?_⟩
      · intro r qq hr hrne _
        exact absurd (pathLe_nil_right hr) hrne
      · intro ev hev
        cases hev
  have hiter := mctsIterI_eq (e := e) hselI
  obtain ⟨heng, hcase⟩ := expandAt_cases p t q e hq
  have hinvT1 : Inv (Node.expandAt p t e).1 :=
    expandAt_AllNodes p t q e hinv hq hqsel hint
  have hstT1 : (Node.expandAt p t e).1.state = t.state := (expandAt_root_fields p t e).1
  have hstq : structOK q := (AllNodes_self (AllNodes_sub hinv hq)).2
  have hroot_sel_of_pne : p ≠ [] → t.is_selectable = true := by
    intro hpne
    refine hint [] t rfl ?_ (Node.get?_nil t)
    intro hcontra
    exact hpne hcontra.symm
  have hp_nil_of_term : legal_moves t.state = 0 → p = [] := by
    intro hterm
    by_contra hpne
    exact (is_selectable_true_iff.mp (hroot_sel_of_pne hpne)).1 hterm
  have hlegal_ne_of_pne : p ≠ [] → legal_moves t.state ≠ 0 := by
    intro hpne h0
    exact absurd (hp_nil_of_term h0) hpne
  rcases hcase with ⟨hfm, htree, hboard, hcreated⟩ | ⟨b', hfm, hboard, hcreated, hget⟩
  · -- no new node was created: the selected leaf is terminal
    have htermq : legal_moves q.state = 0 := by
      by_contra h0
      rcases is_selectable_false_iff.mp hqsel with hq0 | hqne
      · exact h0 hq0
      · exact expand_finds_move e hstq h0 (fun hh => hqne hh.symm) hfm
    have hiter2 : mctsIterI t e = some
        (Node.updateTree
          ((simulate q.state (all_moves e).2).1 == t.state.who_take_turns) p t,
         (simulate q.state (all_moves e).2).2, p, none) := by
      rw [hiter, htree, hboard, hcreated, heng]
    refine ⟨_, _, p, none, hiter2, ?_, ?_, ?_, ?_, ?_, ?_⟩
    · exact updateTree_AllNodes _ p t hinv
    · intro r q2 hr2
      have hvis := updateTree_get_visit
        ((simulate q.state (all_moves e).2).1 == t.state.who_take_turns) p r t
      rw [hr2, Option.map_some'] at hvis
      cases hT : t.get? r with
      | none => rw [hT] at hvis; cases hvis
      | some q0 =>
        rw [hT, Option.map_some', Option.some_inj] at hvis
        rcases hv with hinv1 | ⟨hch0, hv0⟩
        · have hq0v := hinv1 r q0 hT
          by_cases hple : pathLe r p = true
          · rw [if_pos hple] at hvis; omega
          · rw [if_neg hple] at hvis; omega
        · obtain ⟨hr0, hq0t⟩ := get?_of_no_child hch0 r q0 hT
          subst hr0
          have : pathLe [] p = true := rfl
          rw [if_pos this] at hvis
          omega
    · rw [updateTree_state]
    · rw [updateTree_visit_root]
    · cases hp : p with
      | nil =>
        subst hp
        rw [updateTree_childVisitSum_nil]
        have hqt : q = t := by
          rw [Node.get?_nil, Option.some_inj] at hq
          exact hq.symm
        rw [if_pos (by rw [← hqt]; exact htermq)]
        omega
      | cons i p'' =>
        subst hp
        obtain ⟨ch0, hch0⟩ : ∃ ch0, t.child[i]? = some ch0 := by
          rw [Node.get?_cons] at hq
          cases hcc : t.child[i]? with
          | none => rw [hcc] at hq; cases hq
          | some x => exact ⟨x, rfl⟩
        rw [updateTree_childVisitSum_cons _ _ _ _ hch0]
        rw [if_neg (hlegal_ne_of_pne (by intro hcon; cases hcon))]
    · constructor
      · rintro ⟨hp0, _⟩
        subst hp0
        have hqt : q = t := by
          rw [Node.get?_nil, Option.some_inj] at hq
          exact hq.symm
        rw [← hqt]
        exact htermq
      · intro hterm
        exact ⟨hp_nil_of_term hterm, rfl⟩
  · -- a new node was created and appended at the selected leaf
    have hlegal_ne : legal_moves t.state ≠ 0 := by
      intro h0
      have hp0 := hp_nil_of_term h0
      subst hp0
      have hqt : q = t := by
        rw [Node.get?_nil, Option.some_inj] at hq
        exact hq.symm
      have hne := (expand_some_not_full hstq hfm).2
      rw [hqt] at hne
      exact hne h0
    have hiter2 : mctsIterI t e = some
        (Node.updateTree
          ((simulate b' (all_moves e).2).1
            == (Node.expandAt p t e).1.state.who_take_turns)
          (p ++ [q.child.length]) (Node.expandAt p t e).1,
         (simulate b' (all_moves e).2).2, p, some q.child.length) := by
      rw [hiter, hboard, hcreated, heng]
    refine ⟨_, _, p, some q.child.length, hiter2, ?_, ?_, ?_, ?_, ?_, ?_⟩
    · exact updateTree_AllNodes _ _ _ hinvT1
    · intro r q2 hr2
      have hvis := updateTree_get_visit
        ((simulate b' (all_moves e).2).1
          == (Node.expandAt p t e).1.state.who_take_turns)
        (p ++ [q.child.length]) r (Node.expandAt p t e).1
      rw [hr2, Option.map_some'] at hvis
      cases hT : (Node.expandAt p t e).1.get? r with
      | none => rw [hT] at hvis; cases hvis
      | some q1 =>
        rw [hT, Option.map_some', Option.some_inj] at hvis
        rcases expandAt_get_cases p t q e hq r q1 hT with ⟨q0, hq0, hvv, _⟩ | ⟨hrp, hq1n⟩
        · rcases hv with hinv1 | ⟨hch0, hv0⟩
          · have hq0v := hinv1 r q0 hq0
            by_cases hple : pathLe r (p ++ [q.child.length]) = true
            · rw [if_pos hple] at hvis; omega
            · rw [if_neg hple] at hvis; omega
          · obtain ⟨hr0, hq0t⟩ := get?_of_no_child hch0 r q0 hq0
            subst hr0
            have hpt : pathLe [] (p ++ [q.child.length]) = true := rfl
            rw [if_pos hpt] at hvis
            omega
        · subst hrp
          rw [if_pos (pathLe_refl _)] at hvis
          rw [hq1n] at hvis
          simp at hvis
          omega
    · rw [updateTree_state, hstT1]
    · rw [updateTree_visit_root, (expandAt_root_fields p t e).2.2]
    · have hT1sum := expandAt_childVisitSum p t q e hq
      cases hp : p with
      | nil =>
        subst hp
        have hc : (Node.expandAt [] t e).1.child[q.child.length]?
            = some (Node.mk b' 0 0 []) := by
          rw [List.nil_append, Node.get?_cons] at hget
          cases hcc : (Node.expandAt [] t e).1.child[q.child.length]? with
          | none => rw [hcc] at hget; cases hget
          | some x =>
            rw [hcc] at hget
            have hget2 : x.get? [] = some (Node.mk b' 0 0 []) := hget
            rw [Node.get?_nil, Option.some_inj] at hget2
            rw [hget2]
        rw [List.nil_append]
        rw [updateTree_childVisitSum_cons _ _ _ _ hc, hT1sum, if_neg hlegal_ne]
      | cons i p'' =>
        subst hp
        obtain ⟨ch1, hch1⟩ : ∃ ch1, (Node.expandAt (i :: p'') t e).1.child[i]?
            = some ch1 := by
          rw [List.cons_append, Node.get?_cons] at hget
          cases hcc : (Node.expandAt (i :: p'') t e).1.child[i]? with
          | none => rw [hcc] at hget; cases hget
          | some x => exact ⟨x, rfl⟩
        rw [List.cons_append]
        rw [updateTree_childVisitSum_cons _ _ _ _ hch1, hT1sum, if_neg hlegal_ne]
    · constructor
      · rintro ⟨_, hcontra⟩
        cases hcontra
      · intro hterm
        exact absurd hterm hlegal_ne

/-! ### The iteration loop of `node::run_mcts` -/

theorem runMctsI_succ (k : Nat) (t : Node) (e : Engine) (acc : Nat) :
    runMctsI (k + 1) t e acc = (match mctsIterI t e with
      | some st => runMctsI k st.1 st.2.1
          (acc + (if st.2.2.1 = [] ∧ st.2.2.2 = none ∧ legal_moves t.state = 0
            then 1 else 0))
      | none => none) := rfl

theorem fresh_Inv {b : Board} (hg : goodBoard b) : Inv (freshNode b) := by
  apply AllNodes_single
  exact ⟨Nat.le_refl 0, hg, by simp, by simp, Or.inr (by simp)⟩

theorem runMctsI_go : ∀ (k : Nat) (t : Node) (e : Engine) (acc : Nat),
    Inv t → Inv1 t →
    ∃ t' e' cnt, runMctsI k t e acc = some (t', e', cnt) ∧ Inv t' ∧ Inv1 t' ∧
      t'.state = t.state ∧ t'.visit = t.visit + k ∧
      childVisitSum t' = childVisitSum t
        + (if legal_moves t.state = 0 then 0 else k) ∧
      cnt = acc + (if legal_moves t.state = 0 then k else 0) := by
  intro k
  induction k with
  | zero =>
    intro t e acc hinv hinv1
    refine ⟨t, e, acc, rfl, hinv, hinv1, rfl, rfl, ?_, ?_⟩
    · by_cases hleg : legal_moves t.state = 0 <;> simp [hleg]
    · by_cases hleg : legal_moves t.state = 0 <;> simp [hleg]
  | succ k ih =>
    intro t e acc hinv hinv1
    obtain ⟨t1, e1, p, created, hiter, hinv', hinv1', hstate, hvisit, hsum, hiff⟩ :=
      mctsIter_spec t e hinv (Or.inl hinv1)
    obtain ⟨t', e', cnt, hrun, h2, h3, h4, h5, h6, h7⟩ :=
      ih t1 e1 (acc + (if p = [] ∧ created = none ∧ legal_moves t.state = 0
        then 1 else 0)) hinv' hinv1'
    refine ⟨t', e', cnt, ?_, h2, h3, ?_, ?_, ?_, ?_⟩
    · rw [runMctsI_succ, hiter]
      exact hrun
    · rw [h4, hstate]
    · rw [h5, hvisit]
      omega
    · rw [hstate] at h6
      by_cases hleg : legal_moves t.state = 0
      · rw [if_pos hleg] at h6 hsum ⊢
        omega
      · rw [if_neg hleg] at h6 hsum ⊢
        omega
    · rw [hstate] at h7
      by_cases hleg : legal_moves t.state = 0
      · rw [if_pos ⟨(hiff.mpr hleg).1, (hiff.mpr hleg).2, hleg⟩] at h7
        rw [if_pos hleg] at h7 ⊢
        omega
      · rw [if_neg (fun hcon => hleg hcon.2.2)] at h7
        rw [if_neg hleg] at h7 ⊢
        omega

theorem runMctsI_fresh (b : Board) (hg : goodBoard b) : ∀ (k : Nat) (e : Engine),
    ∃ t e' cnt, runMctsI k (freshNode b) e 0 = some (t, e', cnt) ∧
      Inv t ∧ (k = 0 → t = freshNode b) ∧ (1 ≤ k → Inv1 t) ∧
      t.state = b ∧ t.visit = k ∧
      childVisitSum t = k - cnt ∧
      cnt = (if legal_moves b = 0 then k else 0) := by
  intro k e
  have hfresh := fresh_Inv hg
  cases k with
  | zero =>
    refine ⟨freshNode b, e, 0, rfl, hfresh, fun _ => rfl, ?_, rfl, rfl, ?_, ?_⟩
    · intro h; omega
    · rfl
    · by_cases hleg : legal_moves b = 0 <;> simp [hleg]
  | succ k =>
    obtain ⟨t1, e1, p, created, hiter, hinv', hinv1', hstate, hvisit, hsum, hiff⟩ :=
      mctsIter_spec (freshNode b) e hfresh (Or.inr ⟨rfl, rfl⟩)
    obtain ⟨t', e', cnt, hrun, h2, h3, h4, h5, h6, h7⟩ :=
      runMctsI_go k t1 e1 (0 + (if p = [] ∧ created = none ∧
        legal_moves (freshNode b).state = 0 then 1 else 0)) hinv' hinv1'
    have hstb : (freshNode b).state = b := rfl
    have hsum0 : childVisitSum (freshNode b) = 0 := rfl
    have hvis0 : (freshNode b).visit = 0 := rfl
    refine ⟨t', e', cnt, ?_, h2, ?_, fun _ => h3, ?_, ?_, ?_, ?_⟩
    · rw [runMctsI_succ, hiter]
      exact hrun
    · intro hcon; omega
    · rw [h4, hstate, hstb]
    · rw [h5, hvisit, hvis0]
      omega
    · rw [hstate, hstb] at h6 h7
      rw [hstb] at hiff hsum
      by_cases hleg : legal_moves b = 0
      · rw [if_pos hleg] at h6 hsum
        rw [if_pos ⟨(hiff.mpr hleg).1, (hiff.mpr hleg).2, hleg⟩, if_pos hleg] at h7
        omega
      · rw [if_neg hleg] at h6 hsum
        rw [if_neg (fun hcon => hleg hcon.2.2), if_neg hleg] at h7
        omega
    · rw [hstate, hstb] at h7
      rw [hstb] at hiff
      by_cases hleg : legal_moves b = 0
      · rw [if_pos ⟨(hiff.mpr hleg).1, (hiff.mpr hleg).2, hleg⟩, if_pos hleg] at h7
        rw [if_pos hleg]
        omega
      · rw [if_neg (fun hcon => hleg hcon.2.2), if_neg hleg] at h7
        rw [if_neg hleg]
        omega

theorem runMctsI_terminal {b : Board} (h : legal_moves b = 0) :
    ∀ (k v acc : Nat) (e : Engine), ∃ e',
      runMctsI k (Node.mk b 0 v []) e acc
        = some (Node.mk b 0 (v + k) [], e', acc + k) := by
  intro k
  induction k with
  | zero => intro v acc e; exact ⟨e, rfl⟩
  | succ k ih =>
    intro v acc e
    have hns : (Node.mk b 0 v []).is_selectable = false := fresh_not_selectable rfl
    have hsel := selectI_not_selectable hns
    have hiter := mctsIterI_eq (e := e) hsel
    have hfm : findMove (Node.mk b 0 v []).state (Node.mk b 0 v []).child
        (all_moves e).1 = none := findMove_none_of_terminal e h
    have hexp : Node.expandAt [] (Node.mk b 0 v []) e
        = (Node.mk b 0 v [], (Node.mk b 0 v []).state, none, (all_moves e).2) := by
      rw [expandAt_nil, hfm]
    have hiter2 : mctsIterI (Node.mk b 0 v []) e
        = some (Node.updateTree
            ((simulate (Node.mk b 0 v []).state (all_moves e).2).1
              == (Node.mk b 0 v []).state.who_take_turns)
            [] (Node.mk b 0 v []),
          (simulate (Node.mk b 0 v []).state (all_moves e).2).2, [], none) := by
      rw [hiter, hexp]
    have haw : ((simulate (Node.mk b 0 v []).state (all_moves e).2).1
        == (Node.mk b 0 v []).state.who_take_turns) = false := by
      show ((simulate b (all_moves e).2).1 == b.who_take_turns) = false
      rw [simulate_terminal h (all_moves e).2]
      cases b.who_take_turns <;> rfl
    have hiter3 : mctsIterI (Node.mk b 0 v []) e
        = some (Node.mk b 0 (v + 1) [],
            (simulate (Node.mk b 0 v []).state (all_moves e).2).2, [], none) := by
      rw [hiter2, haw]
      rfl
    obtain ⟨e', hrun⟩ := ih (v + 1) (acc + 1)
      (simulate (Node.mk b 0 v []).state (all_moves e).2).2
    refine ⟨e', ?_⟩
    rw [runMctsI_succ, hiter3]
    show runMctsI k (Node.mk b 0 (v + 1) [])
        (simulate (Node.mk b 0 v []).state (all_moves e).2).2
        (acc + (if ([] : List Nat) = [] ∧ (none : Option Nat) = none ∧
          legal_moves (Node.mk b 0 v []).state = 0 then 1 else 0))
      = some (Node.mk b 0 (v + (k + 1)) [], e', acc + (k + 1))
    rw [if_pos (⟨rfl, rfl, h⟩ : ([] : List Nat) = [] ∧ (none : Option Nat) = none ∧
      legal_moves (Node.mk b 0 v []).state = 0)]
    have h1 : v + (k + 1) = v + 1 + k := by omega
    have h2 : acc + (k + 1) = acc + 1 + k := by omega
    rw [h1, h2]
    exact hrun

/-! ### The claims -/

/-- C1: in `node::update` the winner comparison reads `info().who_take_turns`
on the node `update` is invoked on — the root — so the win flag is computed
once and applied uniformly to every node of the path, instead of per node.
At the concrete two-level path `tC1` (black to move at the root, white to
move at the first child c1) with simulated winner black, the code increments
the grandchild's `win` counter to 1, although the player who chose the
grandchild's incoming move is the player to move at c1 — white, not black —
so the spec's per-node attribution demands no increment there. -/
theorem c1_update_win_uniform_not_per_node :
    ((Node.updateTree (Player.black == tC1.state.who_take_turns) [0, 0] tC1).get?
        [0, 0]).map Node.win = some 1 ∧
    (tC1.get? [0]).map (fun q => q.state.who_take_turns) = some Player.white ∧
    Player.black ≠ Player.white := by
  decide

/-- C2: at a node with one unvisited child (index 0, `visits = 0`) and one
visited child (index 1, `visits = 10, wins = 5`), the unvisited child's
`ucb_score` evaluates `0/0` — NaN in float arithmetic — and the strict
comparison against the running maximum rejects NaN, so `node::select`
descends into the visited child at index 1, not the `visits = 0` child that
the claim (and the spec's infinite-score rule) requires. -/
theorem c2_select_prefers_visited_child_over_unvisited :
    Node.select tC2 = some [1] ∧
    (tC2.child[0]?).map Node.visit = some 0 ∧
    (tC2.child[1]?).map Node.visit = some 10 ∧
    (tC2.child[1]?).map Node.win = some 5 ∧
    ucb_score 0 0 10 = FP.nan := by
  decide

/-- C3: `run_mcts` with `iterations = 0` returns the "no move" sentinel
`action()` on every position; and on a position with zero legal moves every
iteration budget returns the sentinel and the loop terminates (the embedded
run is total and returns `some`), each loop entry incrementing the root's
visit counter exactly once and creating or mutating no other node: after `k`
iterations the tree is exactly the root with `visit = k`, `win = 0` and no
children, and all `k` iterations are counted as terminal-leaf iterations. -/
theorem c3_zero_iterations_or_terminal_returns_sentinel (b : Board) (e : Engine) :
    Node.run_mcts (freshNode b) 0 e = some Action.none ∧
    (legal_moves b = 0 →
      ∀ k, ∃ e', runMctsI k (freshNode b) e 0 = some (Node.mk b 0 k [], e', k) ∧
        Node.run_mcts (freshNode b) k e = some Action.none) := by
  constructor
  · rfl
  · intro hterm k
    obtain ⟨e', hrun⟩ := runMctsI_terminal hterm k 0 0 e
    rw [Nat.zero_add] at hrun
    have hrun' : runMctsI k (freshNode b) e 0 = some (Node.mk b 0 k [], e', k) := hrun
    refine ⟨e', hrun', ?_⟩
    unfold Node.run_mcts runMcts
    rw [hrun', Option.map_some', Option.map_some']
    rw [take_action_nil (t := Node.mk b 0 k []) rfl]

/-- C4: after `run_mcts(N, engine)` on a fresh root, the visit counts of the
root's direct children sum to `N` minus the number of iterations whose
selected leaf was the root itself, terminal, with no expansion — the counter
accumulated by the instrumented loop `runMctsI` (its condition is exactly
"selected path empty, nothing created, zero legal moves at selection time").
Each iteration visits the root exactly once (`visit = N`), and the counter is
`N` on a terminal root position and `0` otherwise. -/
theorem c4_child_visit_sum_counts_iterations (b : Board) (e : Engine) (N : Nat)
    (hg : goodBoard b) :
    ∃ t e' cnt, runMctsI N (freshNode b) e 0 = some (t, e', cnt) ∧
      childVisitSum t = N - cnt ∧ t.visit = N ∧
      cnt = (if legal_moves b = 0 then N else 0) := by
  obtain ⟨t, e', cnt, hrun, _, _, _, _, hvisit, hsum, hcnt⟩ := runMctsI_fresh b hg N e
  exact ⟨t, e', cnt, hrun, hsum, hvisit, hcnt⟩

/-- C5: in every tree state reachable by the search loop from a fresh root,
every node satisfies `wins ≤ visits` (the lower bound `0 ≤ wins` is inherent
in the `Nat` embedding of the unsigned counters), and the invariant also
holds at the intermediate state inside an iteration, right after the
expansion phase and before backpropagation (the selection and simulation
phases do not modify the tree). -/
theorem c5_wins_le_visits (b : Board) (e : Engine) (k : Nat) (hg : goodBoard b) :
    ∀ t e' cnt, runMctsI k (freshNode b) e 0 = some (t, e', cnt) →
      AllNodes (fun q => q.win ≤ q.visit) t ∧
      (∀ p evs e2, t.selectI = some (p, evs) →
        AllNodes (fun q => q.win ≤ q.visit) (Node.expandAt p t e2).1) := by
  intro t e' cnt hrun
  obtain ⟨t0, e0, cnt0, hrun0, hInv, hk0, hinv1, _, _, _, _⟩ := runMctsI_fresh b hg k e
  have hsame := hrun0.symm.trans hrun
  rw [Option.some_inj, Prod.mk.injEq, Prod.mk.injEq] at hsame
  obtain ⟨ht, _, _⟩ := hsame
  subst ht
  constructor
  · intro r q hq
    exact (hInv r q hq).1
  · intro p evs e2 hsel
    rcases Nat.eq_zero_or_pos k with hkz | hkpos
    · have hfr := hk0 hkz
      have hns : t0.is_selectable = false := by
        rw [hfr]
        exact fresh_not_selectable rfl
      have hsel0 := selectI_not_selectable hns
      rw [hsel0, Option.some_inj] at hsel
      have hp : p = [] := by
        have := congrArg Prod.fst hsel
        exact this.symm
      subst hp
      have hres := expandAt_AllNodes [] t0 t0 e2 hInv (Node.get?_nil t0) hns
        (fun r qq hr hrne _ => absurd (pathLe_nil_right hr) hrne)
      intro r q hq
      exact (hres r q hq).1
    · obtain ⟨p0, evs0, q0, hsel0, hq0, hqsel0, hint0, _⟩ :=
        selectI_spec hInv (hinv1 hkpos)
      rw [hsel0, Option.some_inj] at hsel
      have hp : p0 = p := congrArg Prod.fst hsel
      subst hp
      have hres := expandAt_AllNodes p0 t0 q0 e2 hInv hq0 hqsel0 hint0
      intro r q hq
      exact (hres r q hq).1

/-- C6: the scan of `node::take_action` compares `int(child[i].visit)` — the
`size_t` visit counter narrowed to a 32-bit signed `int` — against the
running maximum seeded with `-1`.  A child whose visit counter reaches
`2^31` wraps to `-2^31`, never exceeds the seed, and is skipped: at the root
`tC6`, whose second child holds the strictly largest visit count `2^31`
while the first child has only 5 visits, `take_action` returns the first
child's move `0`, not the most-visited child's move `1` — so the
highest-visit selection rule fails for visit counters at and above `2^31`. -/
theorem c6_take_action_int_narrowing_wraps :
    tC6.take_action = Action.place 0 Player.black ∧
    (tC6.child[0]?).map Node.visit = some 5 ∧
    (tC6.child[0]?).map (fun cc => cc.state.last_move) = some 0 ∧
    (tC6.child[1]?).map Node.visit = some (2 ^ 31) ∧
    (tC6.child[1]?).map (fun cc => cc.state.last_move) = some 1 ∧
    (5 : Nat) < 2 ^ 31 ∧ intOfSize (2 ^ 31) = -(2 ^ 31) := by
  decide

/-- C7: `node::simulate` repeatedly plays the first legal candidate of the
shuffled move list until a position with no legal move is reached, and
returns the opponent of the player to move at that terminal position
(no legal move is a loss for the player to move). -/
theorem c7_simulate_winner_opponent_of_stuck_player (b : Board) (e : Engine)
    (hg : goodBoard b) :
    ∃ endB : Board, Reaches b endB ∧ legal_moves endB = 0 ∧
      (simulate b e).1 = Player.other endB.who_take_turns := by
  obtain ⟨endB, hr, _, hleg, hw⟩ := simulate_spec b e hg
  exact ⟨endB, hr, hleg, hw⟩

/-- Witness for C7 at the one-open-cell position `bOneW`. -/
theorem c7_simulate_winner_opponent_of_stuck_player_witness :
    ∃ endB : Board, Reaches bOneW endB ∧ legal_moves endB = 0 ∧
      (simulate bOneW ⟨3⟩).1 = Player.other endB.who_take_turns :=
  c7_simulate_winner_opponent_of_stuck_player bOneW ⟨3⟩ ⟨by decide, by decide⟩

/-- C8: the embedded search is a pure function of the iteration budget, the
seeded engine and the position — mirroring the single-threaded C++ loop whose
only inputs are these — so two executions of `run_mcts` with equal seeds and
equal positions return the identical chosen move. -/
theorem c8_run_mcts_deterministic (s1 s2 : Nat) (b1 b2 : Board) (N : Nat)
    (hs : s1 = s2) (hb : b1 = b2) :
    Node.run_mcts (freshNode b1) N (seedEngine s1)
      = Node.run_mcts (freshNode b2) N (seedEngine s2) := by
  rw [hs, hb]

/-- Witness for C8: two identically seeded three-iteration searches on the
one-move position agree. -/
theorem c8_run_mcts_deterministic_witness :
    Node.run_mcts (freshNode bOneW) 3 (seedEngine 42)
      = Node.run_mcts (freshNode bOneW) 3 (seedEngine 42) :=
  c8_run_mcts_deterministic 42 42 bOneW bOneW 3 rfl rfl

/-- C9: parent back-references stay valid for the node's lifetime.  In C++ a
node's parent pointer (`&parent`) could dangle only if the `std::vector` that
stores the parent — its own parent's `child` vector — reallocated after the
pointer was taken, i.e. if a vector gained an element while one of its
existing elements already had children.  The only sibling-storage mutation in
the program is the `push_back` of `node::expand`, performed at the end of the
selected path; this theorem proves that in every run-reachable tree, whenever
that `push_back` happens (`created = some j`), every existing child of the
expanded node is childless — no live node holds a pointer into the vector
that grows — so the parent pointer read by every `ucb_score` call (embedded
as the walk's current-node visit count in `selectI`) is a read of the live
parent's counter. -/
theorem c9_expand_appends_only_beside_childless_siblings (b : Board) (e : Engine)
    (k : Nat) (hg : goodBoard b) :
    ∀ t e' cnt, runMctsI k (freshNode b) e 0 = some (t, e', cnt) →
    ∀ p evs, t.selectI = some (p, evs) →
    ∀ (e2 : Engine) t1 bb j e3, Node.expandAt p t e2 = (t1, bb, some j, e3) →
    ∀ q, t.get? p = some q → ∀ cc ∈ q.child, cc.child = [] := by
  intro t e' cnt hrun p evs _ e2 t1 bb j e3 hexp q hq cc hcc
  obtain ⟨t0, e0, cnt0, hrun0, hInv, _, _, _, _, _, _⟩ := runMctsI_fresh b hg k e
  have hsame := hrun0.symm.trans hrun
  rw [Option.some_inj, Prod.mk.injEq, Prod.mk.injEq] at hsame
  obtain ⟨ht, _, _⟩ := hsame
  subst ht
  have hstq : structOK q := (AllNodes_self (AllNodes_sub hInv hq)).2
  obtain ⟨_, hcase⟩ := expandAt_cases p t0 q e2 hq
  rcases hcase with ⟨_, _, _, hcr⟩ | ⟨b', hfm, _, _, _⟩
  · rw [hexp] at hcr
    cases hcr
  · exact expand_some_children_leafless hstq hfm cc hcc

/-- After one iteration on the two-open-cell position the root has a child. -/
theorem c9_child_ne_nil : (runW 1 bTwo ⟨5⟩).1.child ≠ [] := by
  intro h
  exact absurd (congrArg List.length h) (by decide)

/-- Witness for C9: after one iteration on the two-open-cell position the
root has one child and is not fully expanded; expanding it again appends a
second child, and the existing sibling is childless. -/
theorem c9_expand_appends_only_beside_childless_siblings_witness :
    ((runW 1 bTwo ⟨5⟩).1.child.head c9_child_ne_nil).child = [] :=
  c9_expand_appends_only_beside_childless_siblings bTwo ⟨5⟩ 1 ⟨by decide, by decide⟩
    (runW 1 bTwo ⟨5⟩).1 (runW 1 bTwo ⟨5⟩).2.1 (runW 1 bTwo ⟨5⟩).2.2 rfl
    [] [] (by decide) ⟨7⟩
    (Node.expandAt [] (runW 1 bTwo ⟨5⟩).1 ⟨7⟩).1
    (Node.expandAt [] (runW 1 bTwo ⟨5⟩).1 ⟨7⟩).2.1 1
    (Node.expandAt [] (runW 1 bTwo ⟨5⟩).1 ⟨7⟩).2.2.2 rfl
    (runW 1 bTwo ⟨5⟩).1 rfl
    ((runW 1 bTwo ⟨5⟩).1.child.head c9_child_ne_nil)
    (List.head_mem c9_child_ne_nil)

/-- C10: in every tree state reachable by `run_mcts` from a fresh root, every
`ucb_score` evaluation performed by `node::select` — recorded by the
instrumentation of `selectI` as one `(win, visit, parent->visit)` triple per
scored child — has `visit ≥ 1` and `parent->visit ≥ 1`: every child created
by `expand` is backpropagated by the iteration that created it, and `select`
only scores the children of fully-expanded nodes, so the divisions
`win/visit` and `log(parent->visit)/visit` inside `ucb_score` never divide
by zero during a run. -/
theorem c10_select_never_divides_by_zero (b : Board) (e : Engine) (k : Nat)
    (hg : goodBoard b) :
    ∀ t e' cnt, runMctsI k (freshNode b) e 0 = some (t, e', cnt) →
    ∀ p evs, t.selectI = some (p, evs) →
    ∀ w v pv, (w, v, pv) ∈ evs → 1 ≤ v ∧ 1 ≤ pv := by
  intro t e' cnt hrun p evs hsel w v pv hmem
  obtain ⟨t0, e0, cnt0, hrun0, hInv, hk0, hinv1, _, _, _, _⟩ := runMctsI_fresh b hg k e
  have hsame := hrun0.symm.trans hrun
  rw [Option.some_inj, Prod.mk.injEq, Prod.mk.injEq] at hsame
  obtain ⟨ht, _, _⟩ := hsame
  subst ht
  rcases Nat.eq_zero_or_pos k with hkz | hkpos
  · have hfr := hk0 hkz
    have hns : t0.is_selectable = false := by
      rw [hfr]
      exact fresh_not_selectable rfl
    rw [selectI_not_selectable hns, Option.some_inj] at hsel
    have hevs : evs = [] := (congrArg Prod.snd hsel).symm
    rw [hevs] at hmem
    cases hmem
  · obtain ⟨p0, evs0, q0, hsel0, _, _, _, hevs0⟩ := selectI_spec hInv (hinv1 hkpos)
    rw [hsel0, Option.some_inj] at hsel
    have hevs : evs0 = evs := congrArg Prod.snd hsel
    subst hevs
    exact hevs0 (w, v, pv) hmem

/-- Witness for C10: after one iteration on the one-open-cell position, the
root is fully expanded and `select` scores its single child, which has
`visit = 1` with `parent->visit = 1`. -/
theorem c10_select_never_divides_by_zero_witness : (1 : Nat) ≤ 1 ∧ (1 : Nat) ≤ 1 :=
  c10_select_never_divides_by_zero bOneW ⟨5⟩ 1 ⟨by decide, by decide⟩
    (runW 1 bOneW ⟨5⟩).1 (runW 1 bOneW ⟨5⟩).2.1 (runW 1 bOneW ⟨5⟩).2.2 rfl
    [0] [(1, 1, 1)] (by decide) 1 1 1 (by decide)

/-- Witness for C3 at a terminal position, with a budget of 3 iterations. -/
theorem c3_zero_iterations_or_terminal_returns_sentinel_witness :
    Node.run_mcts (freshNode bTermW) 0 ⟨5⟩ = some Action.none ∧
    (∃ e', runMctsI 3 (freshNode bTermW) ⟨5⟩ 0
        = some (Node.mk bTermW 0 3 [], e', 3) ∧
      Node.run_mcts (freshNode bTermW) 3 ⟨5⟩ = some Action.none) :=
  ⟨(c3_zero_iterations_or_terminal_returns_sentinel bTermW ⟨5⟩).1,
    (c3_zero_iterations_or_terminal_returns_sentinel bTermW ⟨5⟩).2 (by decide) 3⟩

/-- Witness for C4 with two iterations on the one-open-cell position. -/
theorem c4_child_visit_sum_counts_iterations_witness :
    ∃ t e' cnt, runMctsI 2 (freshNode bOneW) ⟨5⟩ 0 = some (t, e', cnt) ∧
      childVisitSum t = 2 - cnt ∧ t.visit = 2 ∧
      cnt = (if legal_moves bOneW = 0 then 2 else 0) :=
  c4_child_visit_sum_counts_iterations bOneW ⟨5⟩ 2 ⟨by decide, by decide⟩

/-- Witness for C5 after one iteration on the one-open-cell position. -/
theorem c5_wins_le_visits_witness :
    AllNodes (fun q => q.win ≤ q.visit) (runW 1 bOneW ⟨5⟩).1 ∧
    (∀ p evs e2, (runW 1 bOneW ⟨5⟩).1.selectI = some (p, evs) →
      AllNodes (fun q => q.win ≤ q.visit)
        (Node.expandAt p (runW 1 bOneW ⟨5⟩).1 e2).1) :=
  c5_wins_le_visits bOneW ⟨5⟩ 1 ⟨by decide, by decide⟩
    (runW 1 bOneW ⟨5⟩).1 (runW 1 bOneW ⟨5⟩).2.1 (runW 1 bOneW ⟨5⟩).2.2 rfl

end NoGo
